import Mathlib

/-!
A shallow embedding of the `path-tree` route-matching engine
(`src/lib.rs`): a radix tree mapping URL-style path patterns (literal
segments, `:name` parameters, `*name` catch-alls) to payloads, with
`insert` (pattern registration with edge splitting) and `find` (path
lookup with priority-ordered backtracking descent, multi-parameter
segment decomposition and trailing-slash-to-catch-all aliasing).

Byte strings are modelled as `List Char` (the Rust code itself works on
`Vec<char>`).  The tree-construction primitive `Node::add_node_with`
comes from the external `radix_tree` crate whose source is not part of
this repository; it is modelled from the spec (section 4.1: edge
splitting/merging), while everything in `lib.rs` itself (the pattern
scanner, the child-ordering callback, `recognize`, `find`) is
transliterated from the source.

All recursive functions take an explicit fuel argument so that they are
structurally recursive and kernel-reducible; the public wrappers supply
`length + 1` fuel, which is sufficient because every recursive step
consumes at least one byte of the pattern/path on trees whose labels are
non-empty (which `insert` maintains).
-/

namespace PathTreeRepo

/-- `NodeKind` from `lib.rs`: the closed set of node kinds. -/
inductive NodeKind where
  | Root
  | Static
  | Parameter
  | CatchAll
deriving Repr, DecidableEq

/-- `NodeMetadata<R>` from `lib.rs`: `key` marks a registered pattern's
terminal node, `data` is the payload, `params` the ordered parameter
names of the pattern ending here. -/
structure NodeMetadata (R : Type) where
  key : Bool
  kind : NodeKind
  data : Option R
  params : Option (List (List Char))
deriving Repr

/-- `NodeMetadata::new()` from `lib.rs`. -/
def NodeMetadata.new {R : Type} : NodeMetadata R :=
  { key := false, data := none, params := none, kind := .Root }

/-- The `radix_tree::Node<char, NodeMetadata<R>>` shape, as described by
the spec's data model (section 3): a compressed edge label `path`, the
optional metadata `data`, and the parallel `indices` (dispatch keys) /
`nodes` (children) sequences. -/
inductive Node (R : Type) : Type where
  | mk : List Char → Option (NodeMetadata R) → List Char → List (Node R) → Node R

variable {R : Type}

/-- The compressed edge label of a node. -/
def Node.path : Node R → List Char
  | .mk p _ _ _ => p

/-- The optional metadata of a node. -/
def Node.data : Node R → Option (NodeMetadata R)
  | .mk _ d _ _ => d

/-- The dispatch keys (one byte per child). -/
def Node.indices : Node R → List Char
  | .mk _ _ i _ => i

/-- The ordered children of a node. -/
def Node.nodes : Node R → List (Node R)
  | .mk _ _ _ ns => ns

/-- Modelled from the spec: `radix_tree::Node::new` (the crate source is
not part of this repository) — a fresh node with the given label and
metadata and no children. -/
def Node.new (path : List Char) (md : NodeMetadata R) : Node R :=
  .mk path (some md) [] []

/-- `PathTree<R>` from `lib.rs`: owns the root node. -/
structure PathTree (R : Type) where
  tree : Node R

/-- `PathTree::new` from `lib.rs`. -/
def PathTree.new (path : String) (md : NodeMetadata R) : PathTree R :=
  ⟨Node.new path.data md⟩

/-! ## The pattern scanner (from the body of `PathTree::insert`) -/

/-- Boundary scan for a `:` parameter token (`lib.rs` lines 79–94): the
split index for a buffer starting at `:`.  Scanning from position `i`,
stop with `i` at the buffer's end or at a `/`; stop with `i - 1` at a
second `:` or a `*` found at a position `i > 2`. -/
def colonIdx : Nat → List Char → Nat
  | i, [] => i
  | i, c :: cs =>
    if 2 < i ∧ (c = ':' ∨ c = '*') then i - 1
    else if c = '/' then i
    else colonIdx (i + 1) cs

/-- Boundary scan for a static token (`lib.rs` lines 106–114): the run
up to the next `:` or `*`. -/
def staticIdx : List Char → Nat
  | [] => 0
  | c :: cs => if c = ':' ∨ c = '*' then 0 else staticIdx cs + 1

/-- One step of the scanner loop in `PathTree::insert`: from a non-empty
remaining pattern, produce the node kind, the node text actually stored
(`[':']` / `['*']` / the literal run), the captured parameter name (for
dynamic tokens), and the remaining pattern. -/
def scan1 (buf : List Char) : NodeKind × List Char × Option (List Char) × List Char :=
  if buf.isEmpty then (.Static, [], none, [])
  else if buf.headD ' ' = '*' then (.CatchAll, ['*'], some (buf.drop 1), [])
  else if buf.headD ' ' = ':' then
    let i := colonIdx 0 buf
    (.Parameter, [':'], some ((buf.take i).drop 1), buf.drop i)
  else
    let i := staticIdx buf
    (.Static, buf.take i, none, buf.drop i)

/-- The child-ordering callback passed to `add_node_with` in
`PathTree::insert` (`lib.rs` lines 137–165): the position at which a new
child with dispatch key `c` is spliced in, keeping `*` last, `:` before
it and `/` before that. -/
def insertPos (indices : List Char) (c : Char) : Nat :=
  let l := indices.length
  if l = 0 then 0
  else if c = '*' then l
  else
    let j := if indices.getD (l - 1) ' ' = '*' then l - 1 else l
    if c = ':' then j
    else
      let j := if 0 < j ∧ indices.getD (j - 1) ' ' = ':' then j - 1 else j
      if c = '/' then j
      else if 0 < j ∧ indices.getD (j - 1) ' ' = '/' then j - 1 else j

/-! ## The insert engine

`PathTree::insert` drives `radix_tree::Node::add_node_with`, whose crate
source is not part of this repository.  The functions below are
modelled from the spec, section 4.1: the literal run before each marker
is merged into a Static child via edge splitting; `:`/`*` children are
keyed by their marker byte and adding them is idempotent. -/

/-- Length of the longest common prefix of two byte lists. -/
def commonPrefixLen : List Char → List Char → Nat
  | a :: as, b :: bs => if a = b then commonPrefixLen as bs + 1 else 0
  | _, _ => 0

/-- The terminal metadata stored at the node finally reached by an
insertion (`lib.rs` lines 122–134): `key` set, the payload, and the
accumulated parameter names (`None` when the pattern had none). -/
def termMeta (kind : NodeKind) (params : List (List Char)) (d : R) : NodeMetadata R :=
  { key := true, kind := kind, data := some d
    params := if params = [] then none else some params }

/-- The metadata given to a node that is created or split through but is
not the inserted pattern's terminus: no payload (spec section 3:
`payload` present iff the node is a registered pattern's terminus). -/
def passMeta (kind : NodeKind) : NodeMetadata R :=
  { key := false, kind := kind, data := none, params := none }

/-- Append an optional captured parameter name (mirrors the
`params.push` calls in `PathTree::insert`). -/
def pushName (params : List (List Char)) : Option (List Char) → List (List Char)
  | none => params
  | some n => params ++ [n]

/-- Modelled from the spec: a fresh chain of nodes for token text `tok`
followed by the scan of the remaining pattern `buf` — created when
insertion reaches a node with no child for the token's dispatch key.
`fuel` is structural; `buf.length + 1` is always sufficient. -/
def freshChain : Nat → NodeKind → List Char → List Char → List (List Char) → R → Node R
  | 0, kind, tok, _, params, d => Node.mk tok (some (termMeta kind params d)) [] []
  | fuel + 1, kind, tok, buf, params, d =>
    if buf = [] then Node.mk tok (some (termMeta kind params d)) [] []
    else
      let s := scan1 buf
      let child := freshChain fuel s.1 s.2.1 s.2.2.2 (pushName params s.2.2.1) d
      Node.mk tok (some (passMeta kind)) [child.path.headD ' '] [child]

/-- Splice a new child into a node at the position computed by the
ordering callback (`insertPos`); its dispatch key is the first byte of
its label (spec section 3). -/
def addChild (nd : Node R) (child : Node R) : Node R :=
  let c := child.path.headD ' '
  let j := insertPos nd.indices c
  Node.mk nd.path nd.data (nd.indices.insertIdx j c) (nd.nodes.insertIdx j child)

/-- Replace the `i`-th child of a node. -/
def replaceChild (nd : Node R) (i : Nat) (child : Node R) : Node R :=
  Node.mk nd.path nd.data nd.indices (nd.nodes.set i child)

/-- Modelled from the spec (section 4.1): place the current token text
`tok` below `nd` with edge splitting, then continue with the remaining
pattern `buf` at the node reached.  `params` already includes the
current token's captured name.  Cases, for `c` the child dispatched by
`tok`'s first byte and `p` the longest common prefix of `tok` and `c`'s
label:

* no such child: attach a fresh chain for `tok` and the rest;
* `p` is all of `c`'s label and all of `tok`: the edge already exists —
  descend with nothing new (overwriting the metadata there when the
  pattern ends: last write wins);
* `p` is all of `c`'s label but `tok` has leftover: recurse the leftover
  into `c`;
* `p` is shorter than `c`'s label: split — an intermediate labelled `p`
  takes the original node (relabelled to its remainder, payload and
  children carried over) as sole child, and `tok`'s own leftover (if
  any) becomes a second fresh child.

`fuel` is structural; `tok.length + buf.length + 1` is sufficient on
trees with non-empty labels. -/
def placeTok : Nat → Node R → NodeKind → List Char → List Char → List (List Char) → R → Node R
  | 0, nd, _, _, _, _, _ => nd
  | fuel + 1, nd, kind, tok, buf, params, d =>
    match nd.indices.findIdx? (· = tok.headD ' ') with
    | none => addChild nd (freshChain (buf.length + 1) kind tok buf params d)
    | some i =>
      match nd.nodes.get? i with
      | none => nd
      | some c =>
        let p := commonPrefixLen tok c.path
        if p = c.path.length then
          if p = tok.length then
            -- the edge already exists: descend with nothing new
            let c2 :=
              if buf = [] then
                Node.mk c.path (some (termMeta kind params d)) c.indices c.nodes
              else
                let s := scan1 buf
                placeTok fuel c s.1 s.2.1 s.2.2.2 (pushName params s.2.2.1) d
            replaceChild nd i c2
          else
            -- tok has leftover: descend into the existing node
            replaceChild nd i (placeTok fuel c kind (tok.drop p) buf params d)
        else
          -- p shorter than c's label: split
          let orig := Node.mk (c.path.drop p) c.data c.indices c.nodes
          if p = tok.length then
            let inter :=
              Node.mk (tok.take p)
                (some (if buf = [] then termMeta kind params d else passMeta kind))
                [orig.path.headD ' '] [orig]
            let inter2 :=
              if buf = [] then inter
              else
                let s := scan1 buf
                placeTok fuel inter s.1 s.2.1 s.2.2.2 (pushName params s.2.2.1) d
            replaceChild nd i inter2
          else
            let newChild := freshChain (buf.length + 1) kind (tok.drop p) buf params d
            let inter :=
              addChild (Node.mk (tok.take p) (some (passMeta kind))
                [orig.path.headD ' '] [orig]) newChild
            replaceChild nd i inter

/-- `PathTree::insert` from `lib.rs`: strip the leading slashes; the
pattern `/` stores the payload on the root directly (parameter names
untouched); otherwise scan the first token and place it (and the rest)
below the root. -/
def PathTree.insert (t : PathTree R) (path : String) (d : R) : PathTree R :=
  let buf := path.data.dropWhile (· = '/')
  if buf = [] then
    match t.tree.data with
    | some md =>
      ⟨Node.mk t.tree.path (some { md with key := true, data := some d })
        t.tree.indices t.tree.nodes⟩
    | none => t
  else
    let s := scan1 buf
    ⟨placeTok (buf.length + 1) t.tree s.1 s.2.1 s.2.2.2 (pushName [] s.2.2.1) d⟩

/-! ## The match engine (`recognize` from `lib.rs`) -/

/-- The result type of `recognize`: the terminal node together with the
captured values in root-to-leaf order (`None` when nothing was
captured). -/
abbrev RecRes (R : Type) := Node R × Option (List (List Char))

/-- Merging of captured values returned by a recursive call into the
current frame's accumulator (the repeated
`if let Some(mut d) = v { ... append / replace ... }` blocks in
`recognize`). -/
def mergeVals (a b : Option (List (List Char))) : Option (List (List Char)) :=
  match b with
  | none => a
  | some d =>
    match a with
    | some v => some (v ++ d)
    | none => some d

/-- Length of the maximal run of `k` at the head of a buffer. -/
def runLen (k : Char) : List Char → Nat
  | [] => 0
  | c :: cs => if c = k then runLen k cs + 1 else 0

/-- Scan position stopping at the first `k` or `/` (used from position 1
onwards of the parameter scan). -/
def stopAt (k : Char) : List Char → Nat
  | [] => 0
  | c :: cs => if c = k ∨ c = '/' then 0 else stopAt k cs + 1

/-- Scan position stopping at the first `/`. -/
def slashIdx : List Char → Nat
  | [] => 0
  | c :: cs => if c = '/' then 0 else slashIdx cs + 1

/-- The split-point scan of the Parameter arm of `recognize` (`lib.rs`
lines 249–273), for one candidate child dispatch key `k?` (`none` when
the candidate index `n` equals the number of children): the value of `i`
when the inner `while` exits.  With a key `k` equal to the buffer's
first byte, a maximal run of `k` is skipped and `i` points at its last
byte (or the buffer's end when the whole buffer is that run); otherwise
`i` is the position of the first `k` past the start or of the first `/`,
whichever comes first, or the buffer's length. -/
def paramStop (k? : Option Char) (bf : List Char) : Nat :=
  match k? with
  | none => slashIdx bf
  | some k =>
    match bf with
    | [] => 0
    | c :: cs =>
      if c = k then
        let r := runLen k (c :: cs)
        if r = (c :: cs).length then r else r - 1
      else if c = '/' then 0
      else stopAt k cs + 1

/-- The candidate loop of the Parameter arm of `recognize` (`lib.rs`
lines 248–316), abstracted over the recursive call `recog`.  Candidate
`n` ranges over the children (in index order) and finally over `n = l`
(no child: the rest of the path, if slash-free, is the captured value
and the node itself is the result).  For a child candidate the captured
run must be non-empty and the remainder must recursively match that
child, else the next candidate is tried.  `count` is structural fuel
(`l + 1 - n` iterations remain). -/
def paramLoop (recog : List Char → Node R → Option (RecRes R)) (node : Node R)
    (buf : List Char) : Nat → Nat → Option (RecRes R)
  | _, 0 => none
  | n, count + 1 =>
    let l := node.indices.length
    if n < l + 1 then
      let i := paramStop (node.indices.get? n) buf
      if n = l ∧ i = buf.length then some (node, some [buf])
      else if n < l ∧ i < buf.length then
        let bf := buf.take i
        let next := buf.drop i
        if 0 < bf.length then
          match node.nodes.get? n with
          | some child =>
            match recog next child with
            | some r => some (r.1, mergeVals (some [bf]) r.2)
            | none => paramLoop recog node buf (n + 1) count
          | none => paramLoop recog node buf (n + 1) count
        else paramLoop recog node buf (n + 1) count
      else paramLoop recog node buf (n + 1) count
    else none

/-- The trailing-slash aliasing post-processing of a successful Static
attempt (`lib.rs` lines 388–401): a result node whose label ends in `/`
wins only if it is a key node; otherwise, if it owns a CatchAll child,
that child is the true match (with no extra captured value); otherwise
the whole lookup fails (`some none` encodes that hard failure, `none` is
never produced once the inner attempt succeeded). -/
def aliasCheck (r : RecRes R) (values : Option (List (List Char))) :
    Option (Option (RecRes R)) :=
  if r.1.path.getLast? = some '/' then
    match r.1.data with
    | some dt =>
      if dt.key then some (some (r.1, values))
      else if 0 < r.1.indices.length ∧ r.1.indices.getLast? = some '*' then
        match r.1.nodes.get? (r.1.indices.length - 1) with
        | some star => some (some (star, values))
        | none => some none
      else some none
    | none => some (some (r.1, values))
  else some (some (r.1, values))

/-- One child attempt of the Static arm — the shape shared by the
Parameter-child and CatchAll-child attempts in `recognize` (`lib.rs`
lines 407–439): recurse into the `j`-th child and merge its captured
values into the (empty) accumulator. -/
def childAttempt (recog : List Char → Node R → Option (RecRes R)) (buf : List Char)
    (ns : List (Node R)) (j : Nat) : Option (RecRes R) :=
  match ns.get? j with
  | some child =>
    match recog buf child with
    | some r => some (r.1, mergeVals none r.2)
    | none => none
  | none => none

/-- The Static-child attempt of the Static arm (`lib.rs` lines 374–405):
recurse into the dispatched child and, on success, apply the
trailing-slash aliasing post-processing. -/
def staticAttempt (recog : List Char → Node R → Option (RecRes R)) (buf : List Char)
    (ns : List (Node R)) (mi : Nat) : Option (Option (RecRes R)) :=
  match ns.get? mi with
  | none => none
  | some child =>
    match recog buf child with
    | none => none
    | some r => aliasCheck r (mergeVals none r.2)

/-- The Static arm of `recognize` (`lib.rs` lines 320–442), abstracted
over the recursive call `recog`: the node's label must be a prefix of
the path; if it consumes the whole path this node is the candidate; else
descend past it and try, in strict priority order, the Static child
keyed by the next byte (with the trailing-slash aliasing
post-processing), the Parameter child, then the CatchAll child, falling
through to the next class only when the previous class's attempt fails
end-to-end. -/
def staticArm (recog : List Char → Node R → Option (RecRes R)) (path : List Char)
    (node : Node R) : Option (RecRes R) :=
  let o := node.path.length
  let m := if o ≤ path.length then commonPrefixLen path node.path else path.length
  if m < o then none
  else if m = o ∧ m = path.length then some (node, none)
  else
    let l0 := node.indices.length
    if l0 = 0 then none
    else
      let buf := path.drop m
      let hasStar := node.indices.getD (l0 - 1) ' ' = '*'
      let l1 := if hasStar then l0 - 1 else l0
      let oStar := if hasStar then l0 - 1 else 0
      let hasColon := 0 < l1 ∧ node.indices.getD (l1 - 1) ' ' = ':'
      let l2 := if hasColon then l1 - 1 else l1
      let nColon := if hasColon then l1 - 1 else 0
      let c := buf.headD ' '
      let staticStep :=
        match (node.indices.take l2).findIdx? (· = c) with
        | none => none
        | some mi => staticAttempt recog buf node.nodes mi
      match staticStep with
      | some res => res
      | none =>
        match (if hasColon then childAttempt recog buf node.nodes nColon else none) with
        | some res => some res
        | none => if hasStar then childAttempt recog buf node.nodes oStar else none

/-- `recognize` from `lib.rs` (fuel-indexed).  Dispatch on the first
byte of the node's label: `*` captures the whole remaining path; `:`
runs the candidate loop `paramLoop`; any other label runs the Static arm
`staticArm`. -/
def recognizeF : Nat → List Char → Node R → Option (RecRes R)
  | 0, _, _ => none
  | fuel + 1, path, node =>
    if path.length = 0 then none
    else if node.path.isEmpty then none
    else if node.path.headD ' ' = '*' then some (node, some [path])
    else if node.path.headD ' ' = ':' then
      paramLoop (recognizeF fuel) node path 0 (node.indices.length + 1)
    else staticArm (recognizeF fuel) path node

/-- `recognize` from `lib.rs`: the fuel-indexed matcher with sufficient
fuel (every recursion step consumes at least one path byte on trees with
non-empty labels). -/
def recognize (path : List Char) (node : Node R) : Option (RecRes R) :=
  recognizeF (path.length + 1) path node

/-- `PathTree::find` from `lib.rs`: run `recognize`; the result node
must be a key node; pair the captured values positionally with the
node's parameter names (when both are present). -/
def PathTree.find (t : PathTree R) (path : String) :
    Option (Node R × Option (List (List Char × List Char))) :=
  match recognize path.data t.tree with
  | none => none
  | some (node, values) =>
    match node.data with
    | none => some (node, none)
    | some dt =>
      if !dt.key then none
      else
        match dt.params, values with
        | some ps, some vs =>
          some (node, some (vs.enum.map fun iv => (ps.getD iv.1 [], iv.2)))
        | _, _ => some (node, none)

/-- Observable outcome of `find`: the payload stored at the matched node
together with the ordered `(name, value)` bindings. -/
def PathTree.findResult (t : PathTree R) (path : String) :
    Option (Option R × Option (List (List Char × List Char))) :=
  (t.find path).map fun r => (r.1.data.bind fun m => m.data, r.2)

/-- A tree built from scratch (root labelled `/`, as every test in
`lib.rs` does) by a sequence of insertions. -/
def mkTree (l : List (String × R)) : PathTree R :=
  l.foldl (fun t pd => t.insert pd.1 pd.2) (PathTree.new "/" NodeMetadata.new)

/-! ## Specification-side pattern description

Used to state the universally quantified claims (round-trip and the like)
over the grammar of section 6 of the spec: a pattern is a `/` followed by
an alternation of literal, `:name` and `*name` tokens. -/

/-- A pattern token: a literal byte run, a named parameter, or a named
catch-all. -/
inductive Tok where
  | stat : List Char → Tok
  | par : List Char → Tok
  | catchAll : List Char → Tok
deriving Repr, DecidableEq

/-- The node text `insert` stores for a token. -/
def Tok.text : Tok → List Char
  | .stat s => s
  | .par _ => [':']
  | .catchAll _ => ['*']

/-- The node kind of a token. -/
def Tok.kind : Tok → NodeKind
  | .stat _ => .Static
  | .par _ => .Parameter
  | .catchAll _ => .CatchAll

/-- The captured parameter name of a token, if dynamic. -/
def Tok.pname : Tok → Option (List Char)
  | .stat _ => none
  | .par n => some n
  | .catchAll n => some n

/-- The concrete pattern text of a token. -/
def Tok.render : Tok → List Char
  | .stat s => s
  | .par n => ':' :: n
  | .catchAll n => '*' :: n

/-- The pattern text of a token sequence (without the leading `/`). -/
def renderToks (T : List Tok) : List Char := (T.map Tok.render).flatten

/-- The registration string of a token sequence. -/
def patOf (T : List Tok) : String := ⟨'/' :: renderToks T⟩

/-- Whether a token is dynamic (parameter or catch-all). -/
def Tok.isDyn : Tok → Bool
  | .stat _ => false
  | _ => true

/-- A literal run containing no `:` or `*` marker byte. -/
def cleanStat (s : List Char) : Bool := s.all fun c => !(c = ':' ∨ c = '*')

/-- A parameter name containing no marker byte and no `/`. -/
def cleanName (n : List Char) : Bool := n.all fun c => !(c = ':' ∨ c = '*' ∨ c = '/')

/-- Whether a token sequence starts with a dynamic token. -/
def dynHead : List Tok → Bool
  | .par _ :: _ => true
  | .catchAll _ :: _ => true
  | _ => false

/-- Well-formedness of a final token: a literal run is non-empty and
marker-free; a parameter name is non-empty, marker- and slash-free; a
catch-all name is unconstrained. -/
def wfLast : Tok → Bool
  | .stat s => !s.isEmpty && cleanStat s
  | .par n => !n.isEmpty && cleanName n
  | .catchAll _ => true

/-- A literal boundary a parameter's scan can split back off: it either
starts with `/`, or is a single non-`/` byte followed by a dynamic
token. -/
def wfBoundary (s : List Char) (rest₂ : List Tok) : Bool :=
  s.headD ' ' == '/' || (s.length == 1 && decide (s ≠ ['/']) && dynHead rest₂)

/-- Whether a token sequence starts with a well-formed literal boundary
(the shape a parameter's successor must have). -/
def statBoundaryHead : List Tok → Bool
  | [] => false
  | .stat s :: rest₂ => wfBoundary s rest₂
  | .par _ :: _ => false
  | .catchAll _ :: _ => false

/-- Well-formedness of a non-final token relative to its successors: a
literal run is non-empty, marker-free and followed by a dynamic token; a
parameter is followed by a literal boundary; a catch-all is never
non-final. -/
def wfStep : Tok → List Tok → Bool
  | .stat s, rest => !s.isEmpty && cleanStat s && dynHead rest
  | .par n, rest => !n.isEmpty && cleanName n && statBoundaryHead rest
  | .catchAll _, _ => false

/-- Well-formedness of a token sequence, mirroring what the scanner of
`insert` can faithfully split back apart. -/
def wfSeq : List Tok → Bool
  | [] => false
  | [t] => wfLast t
  | t :: r :: rs => wfStep t (r :: rs) && wfSeq (r :: rs)

/-- Whether a token sequence's leading token, when a literal, does not
start with `/`. -/
def headNotSlash : List Tok → Bool
  | [] => true
  | .stat s :: _ => decide (s.headD ' ' ≠ '/')
  | .par _ :: _ => true
  | .catchAll _ :: _ => true

/-- A well-formed pattern: a well-formed token sequence whose leading
token, when a literal, does not start with `/` (the inserted pattern is
`/` followed by the rendered tokens, and `insert` strips all leading
slashes). -/
def wfPat (T : List Tok) : Bool :=
  wfSeq T && headNotSlash T

/-- Whether a parameter value avoids the first byte of the literal
boundary that follows the parameter (no constraint when no literal
follows). -/
def bndOk (v : List Char) : List Tok → Bool
  | [] => true
  | .stat s :: _ => !v.contains (s.headD ' ')
  | .par _ :: _ => true
  | .catchAll _ :: _ => true

/-- Admissible substituted values for the dynamic tokens of a sequence,
in root-to-leaf order: parameter values are non-empty, slash-free and do
not contain the first byte of the literal boundary that follows the
parameter; catch-all values are non-empty. -/
def goodVals : List Tok → List (List Char) → Bool
  | [], vs => vs.isEmpty
  | .stat _ :: rest, vs => goodVals rest vs
  | .par _ :: rest, v :: vs₂ =>
    !v.isEmpty && !v.contains '/' && bndOk v rest && goodVals rest vs₂
  | .par _ :: _, [] => false
  | .catchAll _ :: rest, v :: vs₂ => !v.isEmpty && goodVals rest vs₂
  | .catchAll _ :: _, [] => false

/-- The concrete path text obtained by substituting the values for the
dynamic tokens (without the leading `/`). -/
def concrToks : List Tok → List (List Char) → List Char
  | [], _ => []
  | .stat s :: rest, vs => s ++ concrToks rest vs
  | .par _ :: rest, v :: vs => v ++ concrToks rest vs
  | .par _ :: rest, [] => concrToks rest []
  | .catchAll _ :: rest, v :: vs => v ++ concrToks rest vs
  | .catchAll _ :: rest, [] => concrToks rest []

/-- The concrete request path obtained by substitution. -/
def pathOf (T : List Tok) (V : List (List Char)) : String := ⟨'/' :: concrToks T V⟩

/-- The parameter names of a token sequence, in root-to-leaf order. -/
def namesOf (T : List Tok) : List (List Char) := T.filterMap Tok.pname

/-- The chain of nodes that inserting a (well-formed) pattern into a
fresh tree hangs below the root: one node per token, each owning the
next as sole child, the last carrying the payload and the accumulated
parameter names.  `tok`/`kind` describe the current node's text and
kind, `T` the remaining tokens, `params` the names captured so far. -/
def chainOf (d : R) : NodeKind → List Char → List Tok → List (List Char) → Node R
  | kind, tok, [], params => Node.mk tok (some (termMeta kind params d)) [] []
  | kind, tok, t :: rest, params =>
    let child := chainOf d t.kind t.text rest (pushName params t.pname)
    Node.mk tok (some (passMeta kind)) [child.path.headD ' '] [child]

/-- The terminal node of `chainOf`. -/
def chainLast (d : R) : NodeKind → List Char → List Tok → List (List Char) → Node R
  | kind, tok, [], params => Node.mk tok (some (termMeta kind params d)) [] []
  | _, _, t :: rest, params => chainLast d t.kind t.text rest (pushName params t.pname)

/-- The chain hung for a non-empty token sequence (the first token gives
the head node). -/
def chainNodeOf (d : R) (acc : List (List Char)) : List Tok → Node R
  | [] => Node.mk [] none [] []
  | t :: rest => chainOf d t.kind t.text rest (pushName acc t.pname)

/-- The terminal node of `chainNodeOf`. -/
def chainLastOf (d : R) (acc : List (List Char)) : List Tok → Node R
  | [] => Node.mk [] none [] []
  | t :: rest => chainLast d t.kind t.text rest (pushName acc t.pname)

/-- Captured values as `recognize` reports them: `none` when nothing was
captured. -/
def valsOpt (V : List (List Char)) : Option (List (List Char)) :=
  if V.isEmpty then none else some V

/-- Every reported captured value is a non-empty byte run. -/
def valsOk (o : Option (List (List Char))) : Prop :=
  ∀ vs, o = some vs → ∀ v ∈ vs, v ≠ []

/-- Structural well-formedness of the trees `insert` builds (spec
section 3, invariants 1–2 as far as the matcher relies on them): every
label is non-empty, the dispatch keys are in bijection with the children
and each key is its child's first label byte. -/
inductive WfNode : Node R → Prop where
  | mk : ∀ (p : List Char) (dt : Option (NodeMetadata R)) (idx : List Char)
      (ns : List (Node R)),
      p ≠ [] →
      idx.length = ns.length →
      (∀ pr ∈ idx.zip ns, pr.2.path.headD ' ' = pr.1) →
      (∀ c ∈ ns, WfNode c) →
      WfNode (Node.mk p dt idx ns)

/-- Whether a label is dynamic (counts 1 for a node whose label starts
with a marker byte, 0 otherwise). -/
def dynHd (p : List Char) : Nat :=
  if p.headD ' ' = ':' ∨ p.headD ' ' = '*' then 1 else 0

/-- The label shapes `insert` creates: the parameter marker, the
catch-all marker, or a marker-free literal run. -/
def labOk (l : List Char) : Prop :=
  l = [':'] ∨ l = ['*'] ∨ ∀ c ∈ l, ¬(c = ':' ∨ c = '*')

/-- The parameter-name accounting invariant of the trees `insert`
builds (spec section 3, `param_names`): at a node with `k` dynamic
ancestors, every stored parameter-name list has length exactly `k` plus
one if the node itself is dynamic; labels have the shapes `insert`
creates; and the invariant holds recursively below.  `find`'s indexing
of the terminal node's `param_names` by the position of each captured
value stays in bounds on such trees. -/
inductive PN : Nat → Node R → Prop where
  | mk : ∀ (k : Nat) (p : List Char) (dt : Option (NodeMetadata R))
      (idx : List Char) (ns : List (Node R)),
      labOk p →
      (∀ dtv ps, dt = some dtv → dtv.params = some ps →
        ps.length = k + dynHd p) →
      (∀ c ∈ ns, PN (k + dynHd p) c) →
      PN k (Node.mk p dt idx ns)

/-! ## General lemmas -/

/-- `placeTok` only ever rewrites a node's children: the label is kept. -/
theorem placeTok_path (fuel : Nat) (nd : Node R) (k : NodeKind) (tok buf : List Char)
    (params : List (List Char)) (d : R) :
    (placeTok fuel nd k tok buf params d).path = nd.path := by
  cases fuel with
  | zero => rfl
  | succ fuel =>
    simp only [placeTok]
    split
    · simp [addChild, Node.path]
    · split
      · rfl
      · split
        · split <;> simp [replaceChild, Node.path]
        · split <;> simp [replaceChild, Node.path]

/-- `insert` keeps the root label. -/
theorem insert_path (t : PathTree R) (p : String) (d : R) :
    (t.insert p d).tree.path = t.tree.path := by
  simp only [PathTree.insert]
  split
  · split <;> simp [Node.path]
  · exact placeTok_path ..

/-- Any tree built by `mkTree` has the root label `/`. -/
theorem mkTree_path (l : List (String × R)) : (mkTree l).tree.path = ['/'] := by
  have aux : ∀ (l : List (String × R)) (t : PathTree R),
      (l.foldl (fun t pd => t.insert pd.1 pd.2) t).tree.path = t.tree.path := by
    intro l
    induction l with
    | nil => intro t; rfl
    | cons hd tl ih => intro t; rw [List.foldl_cons, ih, insert_path]
  exact aux l _

/-- `mergeVals` with an empty accumulator returns the merged values. -/
theorem mergeVals_none (b : Option (List (List Char))) : mergeVals none b = b := by
  cases b <;> rfl

/-- `valsOk` holds of an absent value list. -/
theorem valsOk_none : valsOk none := by
  intro vs h; cases h

/-- `valsOk` is preserved by `mergeVals`. -/
theorem valsOk_merge (a b : Option (List (List Char))) (ha : valsOk a)
    (hb : valsOk b) : valsOk (mergeVals a b) := by
  intro vs h v hv
  unfold mergeVals at h
  split at h
  · exact ha _ h v hv
  · split at h
    · cases h
      rcases List.mem_append.mp hv with h1 | h2
      · exact ha _ rfl _ h1
      · exact hb _ rfl _ h2
    · cases h
      exact hb _ rfl _ hv

/-- A successful `aliasCheck` passes the accumulated values through. -/
theorem aliasCheck_vals (r : RecRes R) (values : Option (List (List Char)))
    (out : RecRes R) (h : aliasCheck r values = some (some out)) : out.2 = values := by
  unfold aliasCheck at h
  split at h
  · split at h
    · split at h
      · cases h; rfl
      · split at h
        · split at h
          · cases h; rfl
          · cases h
        · cases h
    · cases h; rfl
  · cases h; rfl

/-- The longest common prefix is no longer than either list. -/
theorem commonPrefixLen_le_right (a b : List Char) : commonPrefixLen a b ≤ b.length := by
  induction a generalizing b with
  | nil => cases b <;> simp [commonPrefixLen]
  | cons x xs ih =>
    cases b with
    | nil => simp [commonPrefixLen]
    | cons y ys =>
      simp only [commonPrefixLen]
      split
      · simpa using ih ys
      · simp

/-- A successful `childAttempt` comes from a successful recursive match
on the addressed child, whose captured values it passes through. -/
theorem childAttempt_success (recog : List Char → Node R → Option (RecRes R))
    (p : List Char) (ns : List (Node R)) (j : Nat) (res : RecRes R)
    (h : childAttempt recog p ns j = some res) :
    ∃ child r, ns.get? j = some child ∧ recog p child = some r ∧ res = (r.1, r.2) := by
  unfold childAttempt at h
  rcases hget : ns.get? j with _ | child
  · simp only [hget] at h
    exact absurd h (by simp)
  · simp only [hget] at h
    rcases hrec : recog p child with _ | r
    · simp only [hrec] at h
      exact absurd h (by simp)
    · simp only [hrec] at h
      cases h
      exact ⟨child, r, rfl, hrec, by rw [mergeVals_none]⟩

/-- A successful `staticAttempt` comes from a successful recursive match
on the addressed child, post-processed by `aliasCheck`. -/
theorem staticAttempt_success (recog : List Char → Node R → Option (RecRes R))
    (p : List Char) (ns : List (Node R)) (mi : Nat) (ores : Option (RecRes R))
    (h : staticAttempt recog p ns mi = some ores) :
    ∃ child r, ns.get? mi = some child ∧ recog p child = some r ∧
      aliasCheck r r.2 = some ores := by
  unfold staticAttempt at h
  rcases hget : ns.get? mi with _ | child
  · simp only [hget] at h
    exact absurd h (by simp)
  · simp only [hget] at h
    rcases hrec : recog p child with _ | r
    · simp only [hrec] at h
      exact absurd h (by simp)
    · simp only [hrec] at h
      rw [mergeVals_none] at h
      exact ⟨child, r, rfl, hrec, h⟩

/-- A successful Static arm is either the node itself with nothing
captured (whole path consumed) or comes from a successful recursive
match on one of the node's children, whose captured values the result
carries (the aliasing post-processing keeps them). -/
theorem staticArm_success (recog : List Char → Node R → Option (RecRes R))
    (path : List Char) (nd : Node R) (res : RecRes R)
    (h : staticArm recog path nd = some res) :
    res = (nd, none) ∨ ∃ child r, child ∈ nd.nodes ∧
      recog (path.drop nd.path.length) child = some r ∧ res.2 = r.2 := by
  simp only [staticArm] at h
  by_cases hmo : (if nd.path.length ≤ path.length then commonPrefixLen path nd.path
      else path.length) < nd.path.length
  · rw [if_pos hmo] at h; simp at h
  · rw [if_neg hmo] at h
    have hm : (if nd.path.length ≤ path.length then commonPrefixLen path nd.path
        else path.length) = nd.path.length := by
      by_cases hle : nd.path.length ≤ path.length
      · rw [if_pos hle]
        rw [if_pos hle] at hmo
        have := commonPrefixLen_le_right path nd.path
        omega
      · rw [if_neg hle] at hmo ⊢
        omega
    rw [hm] at h
    by_cases hfull : nd.path.length = path.length
    · rw [if_pos ⟨rfl, hfull⟩] at h
      cases h
      exact Or.inl rfl
    · rw [if_neg (by simp [hfull])] at h
      by_cases hl0 : nd.indices.length = 0
      · rw [if_pos hl0] at h; simp at h
      · rw [if_neg hl0] at h
        split at h
        · -- the Static-child attempt produced the overall result
          rename_i step0 res0 hstep
          subst h
          split at hstep
          · simp at hstep
          · rcases staticAttempt_success _ _ _ _ _ hstep with ⟨child, r, hget, hrec, halias⟩
            have h2 := aliasCheck_vals r r.2 res halias
            exact Or.inr ⟨child, r, List.get?_mem hget, hrec, h2⟩
        · -- Static-child attempt failed: Parameter then CatchAll
          rename_i step0 hstep
          split at h
          · -- Parameter-child attempt succeeded
            rename_i res0 hcol
            cases h
            split at hcol <;> split at hcol <;>
              first
                | simp at hcol
                | (rename_i hc2
                   rcases childAttempt_success _ _ _ _ _ hcol with ⟨child, r, hget, hrec, hres⟩
                   exact Or.inr ⟨child, r, List.get?_mem hget, hrec, by rw [hres]⟩)
          · -- CatchAll-child attempt
            rename_i hcol
            split at h <;>
              first
                | simp at h
                | (rename_i hc2
                   rcases childAttempt_success _ _ _ _ _ h with ⟨child, r, hget, hrec, hres⟩
                   exact Or.inr ⟨child, r, List.get?_mem hget, hrec, by rw [hres]⟩)

/-- A successful `paramLoop` either captures the whole (slash-free)
remaining buffer at the node itself, or splits off a non-empty captured
run and succeeds recursively on a child with the remainder. -/
theorem paramLoop_success (recog : List Char → Node R → Option (RecRes R))
    (node : Node R) (buf : List Char) :
    ∀ (count n : Nat) (res : RecRes R), paramLoop recog node buf n count = some res →
      res = (node, some [buf]) ∨
      ∃ i child r, node.nodes.get? i = some child ∧
        recog (buf.drop (paramStop (node.indices.get? i) buf)) child = some r ∧
        0 < (buf.take (paramStop (node.indices.get? i) buf)).length ∧
        res = (r.1, mergeVals (some [buf.take (paramStop (node.indices.get? i) buf)]) r.2) := by
  intro count
  induction count with
  | zero => intro n res h; simp [paramLoop] at h
  | succ count ih =>
    intro n res h
    simp only [paramLoop] at h
    by_cases h1 : n < node.indices.length + 1
    · rw [if_pos h1] at h
      by_cases h2 : n = node.indices.length ∧
          paramStop (node.indices.get? n) buf = buf.length
      · rw [if_pos h2] at h
        cases h
        exact Or.inl rfl
      · rw [if_neg h2] at h
        by_cases h3 : n < node.indices.length ∧
            paramStop (node.indices.get? n) buf < buf.length
        · rw [if_pos h3] at h
          by_cases h4 : 0 < (buf.take (paramStop (node.indices.get? n) buf)).length
          · rw [if_pos h4] at h
            rcases hget : node.nodes.get? n with _ | child
            · simp only [hget] at h
              exact ih _ _ h
            · simp only [hget] at h
              rcases hrec : recog (buf.drop (paramStop (node.indices.get? n) buf)) child
                with _ | r
              · simp only [hrec] at h
                exact ih _ _ h
              · simp only [hrec] at h
                cases h
                exact Or.inr ⟨n, child, r, hget, hrec, h4, rfl⟩
          · rw [if_neg h4] at h
            exact ih _ _ h
        · rw [if_neg h3] at h
          exact ih _ _ h
    · rw [if_neg h1] at h
      simp at h

/-- Every value `recognizeF` reports is non-empty. -/
theorem recognizeF_vals_nonempty :
    ∀ (fuel : Nat) (path : List Char) (nd : Node R) (res : RecRes R),
      recognizeF fuel path nd = some res → valsOk res.2 := by
  intro fuel
  induction fuel with
  | zero => intro path nd res h; exact absurd h (by simp [recognizeF])
  | succ fuel ih =>
    intro path nd res h
    rw [recognizeF] at h
    split at h
    · exact absurd h (by simp)
    · split at h
      · exact absurd h (by simp)
      · split at h
        · cases h
          intro vs hvs v hv
          cases hvs
          rcases List.mem_singleton.mp hv with rfl
          intro hempty
          simp [hempty] at *
        · split at h
          · -- Parameter node: the candidate loop
            rcases paramLoop_success _ _ _ _ _ _ h with hself | ⟨i, child, r, _, hrec, hlen, hres⟩
            · subst hself
              intro vs hvs v hv
              cases hvs
              rcases List.mem_singleton.mp hv with rfl
              intro he
              simp [he] at *
            · subst hres
              refine valsOk_merge _ _ ?_ (ih _ _ _ hrec)
              intro vs hvs v hv
              cases hvs
              rcases List.mem_singleton.mp hv with rfl
              exact List.ne_nil_of_length_pos hlen
          · -- Static node
            rcases staticArm_success _ _ _ _ h with hself | ⟨child, r, _, hrec, hres⟩
            · subst hself
              exact valsOk_none
            · rw [hres]
              exact ih _ _ _ hrec


/-- C6.  For every tree built by any sequence of insertions, `Find`
applied to an empty path, or to any path whose first byte is not `/`,
returns not-found: the root's label is the single byte `/` and the
Static arm rejects any path that does not begin with it. -/
theorem claim_C6_invalid_path (l : List (String × R)) (p : String)
    (h : p.data.head? ≠ some '/') : (mkTree l).findResult p = none := by
  have hpath := mkTree_path l
  have hrec : recognize p.data (mkTree l).tree = none := by
    rcases hp : p.data with _ | ⟨c, cs⟩
    · simp [recognize, recognizeF]
    · have hc : ¬c = '/' := by
        intro hcc
        rw [hp, hcc] at h
        exact h rfl
      rw [recognize, recognizeF]
      rw [if_neg (by simp), if_neg (by simp [hpath]), if_neg (by simp [hpath]),
        if_neg (by simp [hpath])]
      simp [staticArm, hpath, commonPrefixLen, hc]
  simp [PathTreeRepo.PathTree.findResult, PathTreeRepo.PathTree.find, hrec]

/-- C6, witness at a concrete instance: the path `x` does not start with
`/`, and `Find` on a one-route tree returns not-found for it. -/
theorem claim_C6_invalid_path_witness :
    ("x".data.head? ≠ some '/') ∧ (mkTree [("/a", (1 : Nat))]).findResult "x" = none :=
  ⟨by decide, claim_C6_invalid_path _ _ (by decide)⟩

/-- C10.  Every `(name, value)` binding `Find` returns — from any tree
and any path — has a non-empty value: a Parameter capture is only pushed
when its run is non-empty, and the empty catch-all capture reached via
trailing-slash aliasing produces no binding entry at all. -/
theorem claim_C10_bindings_nonempty (t : PathTree R) (p : String) (dr : Option R)
    (pairs : List (List Char × List Char))
    (h : t.findResult p = some (dr, some pairs)) : ∀ pr ∈ pairs, pr.2 ≠ [] := by
  intro pr hpr
  unfold PathTreeRepo.PathTree.findResult at h
  rcases Option.map_eq_some'.mp h with ⟨r, hfind, hmap⟩
  have hr2 : r.2 = some pairs := congrArg Prod.snd hmap
  unfold PathTreeRepo.PathTree.find at hfind
  rcases hrec : recognize p.data t.tree with _ | nv
  · simp only [hrec] at hfind
    exact absurd hfind (by simp)
  · simp only [hrec] at hfind
    obtain ⟨node, values⟩ := nv
    have hvals := recognizeF_vals_nonempty (p.data.length + 1) p.data t.tree
      (node, values) hrec
    rcases hnd : node.data with _ | dt
    · simp only [hnd] at hfind
      cases hfind
      exact absurd hr2 (by simp)
    · simp only [hnd] at hfind
      by_cases hkey : dt.key = true
      · rw [if_neg (by simp [hkey])] at hfind
        rcases hps : dt.params with _ | ps
        · simp only [hps] at hfind
          cases hfind
          exact absurd hr2 (by simp)
        · simp only [hps] at hfind
          rcases hvs : values with _ | vs
          · simp only [hvs] at hfind
            cases hfind
            exact absurd hr2 (by simp)
          · simp only [hvs] at hfind
            cases hfind
            simp only at hr2
            cases hr2
            rcases List.mem_map.mp hpr with ⟨iv, hiv, rfl⟩
            have hmem : iv.2 ∈ vs := List.get?_mem (List.mem_enum_iff_get?.mp hiv)
            exact hvals vs (by rw [hvs]) iv.2 hmem
      · rw [if_pos (by simp [Bool.not_eq_true] at hkey ⊢; exact hkey)] at hfind
        exact absurd hfind (by simp)

/-- C10, witness at a concrete instance: a one-parameter route, its
binding value `x` non-empty. -/
theorem claim_C10_bindings_nonempty_witness :
    (mkTree [("/:a", (1 : Nat))]).findResult "/x" =
      some (some 1, some [("a".data, "x".data)]) ∧ "x".data ≠ [] :=
  ⟨by decide, claim_C10_bindings_nonempty (mkTree [("/:a", (1 : Nat))]) "/x" (some 1)
    [("a".data, "x".data)] (by decide) ("a".data, "x".data) (by decide)⟩

/-- C2, counterexample.  After `Insert("/src/*filepath", 0)`,
`Find("/src/")` does match the catch-all's payload through trailing-slash
aliasing, but it returns **no** bindings at all (the `recognize` aliasing
branch returns the CatchAll child without pushing a captured value, and
`find` then pairs names with an absent value list), not the binding
`filepath = ""` the claim states. -/
theorem claim_C2_counterexample :
    (mkTree [("/src/*filepath", (0 : Nat))]).findResult "/src/" = some (some 0, none) ∧
    ¬ (mkTree [("/src/*filepath", (0 : Nat))]).findResult "/src/" =
        some (some 0, some [("filepath".data, ([] : List Char))]) := by
  constructor
  · decide
  · decide

/-- C2, amended.  After `Insert("/src/*filepath", 0)`: `Find("/src/")`
matches that payload with no binding entries at all (rather than an
empty-valued `filepath` binding); `Find("/src")` is no match;
`Find("/src/a/b")` matches with `filepath = "a/b"`. -/
theorem claim_C2_trailing_slash :
    (mkTree [("/src/*filepath", (0 : Nat))]).findResult "/src/" = some (some 0, none) ∧
    (mkTree [("/src/*filepath", (0 : Nat))]).findResult "/src" = none ∧
    (mkTree [("/src/*filepath", (0 : Nat))]).findResult "/src/a/b" =
      some (some 0, some [("filepath".data, "a/b".data)]) := by
  refine ⟨by decide, by decide, by decide⟩

/-- C3.  With sibling Static (`/ab/x`), Parameter (`/:p/x`) and CatchAll
(`/*w`) children of the root all structurally able to consume the next
bytes: the Static route wins on `/ab/x` even though the Parameter and
CatchAll subtrees would also fully match it; when the Static subtree
fails end-to-end (`/zz/x`), the Parameter route wins even though the
CatchAll would also match; when both fail (`/zz/q`), the CatchAll route
matches. -/
theorem claim_C3_priority_order :
    (mkTree [("/ab/x", (1 : Nat)), ("/:p/x", 2), ("/*w", 3)]).findResult "/ab/x" =
      some (some 1, none) ∧
    (mkTree [("/ab/x", (1 : Nat)), ("/:p/x", 2), ("/*w", 3)]).findResult "/zz/x" =
      some (some 2, some [("p".data, "zz".data)]) ∧
    (mkTree [("/ab/x", (1 : Nat)), ("/:p/x", 2), ("/*w", 3)]).findResult "/zz/q" =
      some (some 3, some [("w".data, "zz/q".data)]) := by
  refine ⟨by decide, by decide, by decide⟩

/-- C4.  Multiple parameters can share one path segment, split at
literal boundary bytes: the two examples from the claim, plus a lookup
(`/p.q-r/w` against `/:x.:y/tail` and `/:x-*z`) in which the first
candidate split point (at the `.`) fails downstream and the matcher
retries the next candidate boundary (the `-`), capturing `x = "p.q"`. -/
theorem claim_C4_multi_param_segment :
    (mkTree [("/:name.:ext", (0 : Nat))]).findResult "/main.rs" =
      some (some 0, some [("name".data, "main".data), ("ext".data, "rs".data)]) ∧
    (mkTree [("/:name.:a0.:b0", (0 : Nat))]).findResult "/main.rs.build" =
      some (some 0, some [("name".data, "main".data), ("a0".data, "rs".data),
        ("b0".data, "build".data)]) ∧
    (mkTree [("/:x.:y/tail", (0 : Nat)), ("/:x-*z", 1)]).findResult "/p.q-r/w" =
      some (some 1, some [("x".data, "p.q".data), ("z".data, "r/w".data)]) := by
  refine ⟨by decide, by decide, by decide⟩

/-- C5, counterexample.  `Insert` does not reject `"/:a:b"` (it has no
failure channel at all): the pattern is silently registered, the whole
run `a:b` becoming a single parameter name, and a subsequent
`Find("/x")` matches it — refuting the claim that such patterns are
rejected at insertion time. -/
theorem claim_C5_counterexample :
    (mkTree [("/:a:b", (0 : Nat))]).findResult "/x" =
      some (some 0, some [("a:b".data, "x".data)]) := by
  decide

/-- C5, amended.  A pattern with two parameter markers not separated by
a literal boundary byte is accepted silently rather than rejected:
`"/:a:b"` is stored as one parameter named `a:b`, while `"/:ab:c"` is
mis-split into parameter `a`, literal `b`, parameter `c` (the scanner
breaks one byte before a marker found past index 2). -/
theorem claim_C5_no_rejection :
    (mkTree [("/:a:b", (0 : Nat))]).findResult "/x" =
      some (some 0, some [("a:b".data, "x".data)]) ∧
    (mkTree [("/:ab:c", (5 : Nat))]).findResult "/XbY" =
      some (some 5, some [("a".data, "X".data), ("c".data, "Y".data)]) := by
  refine ⟨by decide, by decide⟩

/-- C8.  Edge splitting preserves previously registered routes: after
`Insert("/contact", 1)` then `Insert("/co", 2)` — which splits the
existing `contact` edge into `co` + `ntact` — both patterns remain
independently findable with their original payloads. -/
theorem claim_C8_split_preserves :
    (mkTree [("/contact", (1 : Nat)), ("/co", 2)]).findResult "/contact" =
      some (some 1, none) ∧
    (mkTree [("/contact", (1 : Nat)), ("/co", 2)]).findResult "/co" =
      some (some 2, none) := by
  refine ⟨by decide, by decide⟩

/-- C1, counterexample.  For the pattern `/:name.:ext` with substituted
values `name = "x.y"`, `ext = "z"`, the concrete path is `/x.y.z`, but
`Find` does not return the substituted bindings: the parameter scan
splits at the first `.`, yielding `name = "x"`, `ext = "y.z"`. -/
theorem claim_C1_counterexample :
    patOf [Tok.par "name".data, Tok.stat ".".data, Tok.par "ext".data] = "/:name.:ext" ∧
    pathOf [Tok.par "name".data, Tok.stat ".".data, Tok.par "ext".data]
      ["x.y".data, "z".data] = "/x.y.z" ∧
    (mkTree [("/:name.:ext", (7 : Nat))]).findResult "/x.y.z" =
      some (some 7, some [("name".data, "x".data), ("ext".data, "y.z".data)]) ∧
    ¬ (mkTree [("/:name.:ext", (7 : Nat))]).findResult "/x.y.z" =
        some (some 7, some (List.zip
          (namesOf [Tok.par "name".data, Tok.stat ".".data, Tok.par "ext".data])
          ["x.y".data, "z".data])) := by
  refine ⟨by decide, by decide, by decide, by decide⟩


/-! ## Scanner inversion on well-formed patterns -/

theorem colonIdx_clean (u : List Char) (tail : List Char) :
    ∀ i, (∀ c ∈ u, ¬(c = ':' ∨ c = '*' ∨ c = '/')) →
      colonIdx i (u ++ tail) = colonIdx (i + u.length) tail := by
  induction u with
  | nil => intro i _; simp
  | cons c cs ih =>
    intro i h
    have hc := h c (by simp)
    simp only [List.cons_append, colonIdx, List.append_eq]
    rw [if_neg (by tauto), if_neg (by tauto)]
    rw [ih (i + 1) (fun x hx => h x (by simp [hx]))]
    congr 1
    simp
    omega

theorem staticIdx_append (s m : List Char) (hs : ∀ c ∈ s, ¬(c = ':' ∨ c = '*'))
    (hm : m = [] ∨ m.headD ' ' = ':' ∨ m.headD ' ' = '*') :
    staticIdx (s ++ m) = s.length := by
  induction s with
  | nil =>
    rcases m with _ | ⟨c, cs⟩
    · rfl
    · simp only [List.headD_cons] at hm
      rcases hm with h | h | h
      · cases h
      · simp [staticIdx, h]
      · simp [staticIdx, h]
  | cons x xs ih =>
    have hx := hs x (by simp)
    simp only [List.cons_append, staticIdx, List.append_eq]
    rw [if_neg hx, ih (fun c hc => hs c (by simp [hc]))]
    simp

theorem wfSeq_tail (t : Tok) (rest : List Tok) (h : wfSeq (t :: rest) = true) :
    rest = [] ∨ wfSeq rest = true := by
  cases rest with
  | nil => exact Or.inl rfl
  | cons r rs =>
    right
    rw [wfSeq, Bool.and_eq_true] at h
    exact h.2

theorem cleanStat_mem {s : List Char} (h : cleanStat s = true) :
    ∀ c ∈ s, ¬(c = ':' ∨ c = '*') := by
  intro c hc
  have := List.all_eq_true.mp h c hc
  simpa using this

theorem cleanName_mem {n : List Char} (h : cleanName n = true) :
    ∀ c ∈ n, ¬(c = ':' ∨ c = '*' ∨ c = '/') := by
  intro c hc
  have := List.all_eq_true.mp h c hc
  simpa using this

theorem renderToks_dyn (rest : List Tok) (h : dynHead rest = true) :
    ∃ m0 ms, renderToks rest = m0 :: ms ∧ (m0 = ':' ∨ m0 = '*') := by
  cases rest with
  | nil => simp [dynHead] at h
  | cons r rs =>
    cases r with
    | stat s => simp [dynHead] at h
    | par n => exact ⟨':', n ++ renderToks rs, by simp [renderToks, Tok.render], Or.inl rfl⟩
    | catchAll n =>
      exact ⟨'*', n ++ renderToks rs, by simp [renderToks, Tok.render], Or.inr rfl⟩

theorem renderToks_cons (t : Tok) (rest : List Tok) :
    renderToks (t :: rest) = t.render ++ renderToks rest := by
  simp [renderToks]

theorem wfLast_of_stat (s : List Char) (rest : List Tok)
    (h : wfSeq (Tok.stat s :: rest) = true) :
    s ≠ [] ∧ cleanStat s = true ∧ (rest = [] ∨ dynHead rest = true) := by
  cases rest with
  | nil =>
    rw [wfSeq, wfLast, Bool.and_eq_true] at h
    exact ⟨by simpa using h.1, h.2, Or.inl rfl⟩
  | cons r rs =>
    rw [wfSeq, Bool.and_eq_true, wfStep] at h
    simp only [Bool.and_eq_true] at h
    exact ⟨by simpa using h.1.1.1, h.1.1.2, Or.inr h.1.2⟩

theorem wfLast_of_par (n : List Char) (rest : List Tok)
    (h : wfSeq (Tok.par n :: rest) = true) :
    n ≠ [] ∧ cleanName n = true := by
  cases rest with
  | nil =>
    rw [wfSeq, wfLast, Bool.and_eq_true] at h
    exact ⟨by simpa using h.1, h.2⟩
  | cons r rs =>
    rw [wfSeq, Bool.and_eq_true, wfStep] at h
    simp only [Bool.and_eq_true] at h
    exact ⟨by simpa using h.1.1.1, h.1.1.2⟩

theorem colonIdx_render (n : List Char) (rest : List Tok)
    (hwf : wfSeq (Tok.par n :: rest) = true) :
    colonIdx 0 (':' :: (n ++ renderToks rest)) = n.length + 1 := by
  rcases wfLast_of_par n rest hwf with ⟨hne, hclean⟩
  rw [show colonIdx 0 (':' :: (n ++ renderToks rest)) =
      colonIdx 1 (n ++ renderToks rest) by rw [colonIdx]; simp]
  rw [colonIdx_clean n _ 1 (cleanName_mem hclean)]
  cases rest with
  | nil => simp [renderToks, colonIdx]; omega
  | cons r rs =>
    rw [wfSeq, Bool.and_eq_true, wfStep] at hwf
    simp only [Bool.and_eq_true] at hwf
    rcases hwf with ⟨⟨_, hbh⟩, hwfrest⟩
    cases r with
    | stat s =>
      rw [statBoundaryHead, wfBoundary] at hbh
      simp only [Bool.or_eq_true, Bool.and_eq_true] at hbh
      rcases wfLast_of_stat s rs hwfrest with ⟨hsne, hsclean, _⟩
      rcases hbh with hb | ⟨⟨hb1, hb2⟩, hb3⟩
      · -- boundary starts with '/'
        rcases s with _ | ⟨b, bs⟩
        · exact absurd rfl hsne
        simp only [List.headD_cons] at hb
        have hbeq : b = '/' := by simpa using hb
        subst hbeq
        rw [renderToks_cons]
        simp only [Tok.render, List.cons_append]
        rw [colonIdx]
        rw [if_neg (by simp), if_pos rfl]
        omega
      · -- single-byte boundary followed by a dynamic token
        rcases s with _ | ⟨b, bs⟩
        · simp at hb1
        have hbs : bs = [] := by
          have : (b :: bs).length = 1 := by simpa using hb1
          simpa using this
        subst hbs
        have hbslash : ¬b = '/' := by
          intro hbeq
          subst hbeq
          simp at hb2
        have hbmark := cleanStat_mem hsclean b (by simp)
        rcases renderToks_dyn rs hb3 with ⟨m0, ms, hmr, hm0⟩
        rw [renderToks_cons, hmr]
        simp only [Tok.render, List.cons_append, List.nil_append]
        rw [colonIdx]
        rw [if_neg (by tauto), if_neg hbslash]
        have hlen : 0 < n.length := List.length_pos.mpr hne
        rw [colonIdx]
        rw [if_pos ⟨by omega, hm0⟩]
        omega
    | par m => rw [statBoundaryHead] at hbh; cases hbh
    | catchAll m => rw [statBoundaryHead] at hbh; cases hbh

theorem scan1_render (t : Tok) (rest : List Tok) (hwf : wfSeq (t :: rest) = true) :
    scan1 (renderToks (t :: rest)) = (t.kind, t.text, t.pname, renderToks rest) := by
  cases t with
  | stat s =>
    rcases wfLast_of_stat s rest hwf with ⟨hne, hclean, hdh⟩
    have hmrest : renderToks rest = [] ∨ (renderToks rest).headD ' ' = ':' ∨
        (renderToks rest).headD ' ' = '*' := by
      rcases hdh with h2 | h2
      · left; simp [h2, renderToks]
      · rcases renderToks_dyn rest h2 with ⟨m0, ms, hmr, hm0⟩
        rw [hmr]
        rcases hm0 with h | h
        · right; left; simp [h]
        · right; right; simp [h]
    rcases s with _ | ⟨c, cs⟩
    · exact absurd rfl hne
    have hcmark := cleanStat_mem hclean c (by simp)
    rw [renderToks_cons]
    simp only [Tok.render, List.cons_append]
    rw [scan1]
    rw [if_neg (by simp), if_neg (by simpa using fun h => hcmark (Or.inr h)),
      if_neg (by simpa using fun h => hcmark (Or.inl h))]
    have hidx : staticIdx (c :: (cs ++ renderToks rest)) = (c :: cs).length := by
      have := staticIdx_append (c :: cs) (renderToks rest) (cleanStat_mem hclean) hmrest
      simpa using this
    rw [hidx]
    simp only [Tok.kind, Tok.text, Tok.pname, List.length_cons, List.take_succ_cons,
      List.drop_succ_cons, List.take_left, List.drop_left]
  | par n =>
    have hi := colonIdx_render n rest hwf
    rw [renderToks_cons]
    simp only [Tok.render, List.cons_append]
    rw [scan1]
    rw [if_neg (by simp), if_neg (by simp), if_pos (by simp)]
    simp only [hi, Tok.kind, Tok.text, Tok.pname, List.take_succ_cons,
      List.drop_succ_cons, List.take_left, List.drop_left, List.drop_one,
      List.tail_cons, List.drop_zero]
  | catchAll n =>
    cases rest with
    | nil =>
      rw [renderToks_cons]
      simp [Tok.render, scan1, Tok.kind, Tok.text, Tok.pname, renderToks]
    | cons r rs =>
      rw [wfSeq, Bool.and_eq_true, wfStep] at hwf
      exact absurd hwf.1 (by simp)



theorem chainOf_path (d : R) (kind : NodeKind) (tok : List Char) (T : List Tok)
    (params : List (List Char)) : (chainOf d kind tok T params).path = tok := by
  cases T <;> simp [chainOf, Node.path]

theorem renderToks_length_pos (t : Tok) (rest : List Tok)
    (hwf : wfSeq (t :: rest) = true) : renderToks (t :: rest) ≠ [] := by
  rw [renderToks_cons]
  cases t with
  | stat s =>
    rcases wfLast_of_stat s rest hwf with ⟨hne, _, _⟩
    simp only [Tok.render]
    intro h
    exact hne (List.append_eq_nil.mp h).1
  | par n => simp [Tok.render]
  | catchAll n => simp [Tok.render]

theorem freshChain_eq (d : R) :
    ∀ (T : List Tok) (fuel : Nat) (kind : NodeKind) (tok : List Char)
      (params : List (List Char)), (T = [] ∨ wfSeq T = true) →
      (renderToks T).length < fuel →
      freshChain fuel kind tok (renderToks T) params d = chainOf d kind tok T params := by
  intro T
  induction T with
  | nil =>
    intro fuel kind tok params _ hfuel
    cases fuel with
    | zero => omega
    | succ f => simp [renderToks, freshChain, chainOf]
  | cons t rest ih =>
    intro fuel kind tok params hwf hfuel
    rcases hwf with h | hwf
    · cases h
    cases fuel with
    | zero => omega
    | succ f =>
      rw [freshChain]
      rw [if_neg (renderToks_length_pos t rest hwf)]
      simp only [scan1_render t rest hwf]
      have htail := wfSeq_tail t rest hwf
      have hlen : (renderToks rest).length < f := by
        have h1 : renderToks (t :: rest) = t.render ++ renderToks rest :=
          renderToks_cons t rest
        have h2 : t.render ≠ [] := by
          cases t with
          | stat s =>
            rcases wfLast_of_stat s rest hwf with ⟨hne, _, _⟩
            simpa [Tok.render] using hne
          | par n => simp [Tok.render]
          | catchAll n => simp [Tok.render]
        have h3 : 0 < t.render.length := List.length_pos.mpr h2
        rw [h1] at hfuel
        simp only [List.length_append] at hfuel
        omega
      rw [ih f t.kind t.text (pushName params t.pname) htail hlen]
      simp [chainOf, chainOf_path]

theorem insert_fresh (T : List Tok) (d : R) (hwf : wfPat T = true) :
    (PathTree.new "/" NodeMetadata.new).insert (patOf T) d =
      ⟨Node.mk ['/'] (some NodeMetadata.new)
        [(chainNodeOf d [] T).path.headD ' '] [chainNodeOf d [] T]⟩ := by
  rw [wfPat, Bool.and_eq_true] at hwf
  rcases hwf with ⟨hwfs, hhead⟩
  rcases T with _ | ⟨t, rest⟩
  · rw [wfSeq] at hwfs; cases hwfs
  have hstrip : (patOf (t :: rest)).data.dropWhile (· = '/') = renderToks (t :: rest) := by
    have h0 : (patOf (t :: rest)).data = '/' :: renderToks (t :: rest) := rfl
    rw [h0]
    rw [List.dropWhile_cons]
    rw [if_pos (by simp)]
    rcases hr : renderToks (t :: rest) with _ | ⟨c, cs⟩
    · rfl
    have hcslash : ¬c = '/' := by
      cases t with
      | stat s =>
        rw [headNotSlash] at hhead
        rcases wfLast_of_stat s rest hwfs with ⟨hne, _, _⟩
        rcases s with _ | ⟨b, bs⟩
        · exact absurd rfl hne
        rw [renderToks_cons] at hr
        simp only [Tok.render, List.cons_append, List.cons.injEq] at hr
        rw [← hr.1]
        simpa using hhead
      | par n =>
        rw [renderToks_cons] at hr
        simp only [Tok.render, List.cons_append, List.cons.injEq] at hr
        rw [← hr.1]
        simp
      | catchAll n =>
        rw [renderToks_cons] at hr
        simp only [Tok.render, List.cons_append, List.cons.injEq] at hr
        rw [← hr.1]
        simp
    rw [List.dropWhile_cons, if_neg (by simpa using hcslash)]
  rw [PathTree.insert]
  simp only [hstrip]
  rw [if_neg (renderToks_length_pos t rest hwfs)]
  simp only [scan1_render t rest hwfs]
  -- the fresh root has no children: a fresh chain is attached
  have hroot : (PathTree.new "/" NodeMetadata.new : PathTree R).tree =
      Node.mk ['/'] (some NodeMetadata.new) [] [] := rfl
  rw [hroot]
  cases hfc : (renderToks (t :: rest)).length + 1 with
  | zero => omega
  | succ f =>
    rw [placeTok]
    simp only [Node.indices, List.findIdx?_nil]
    have hchain : freshChain ((renderToks rest).length + 1) t.kind t.text
        (renderToks rest) (pushName [] t.pname) d =
        chainOf d t.kind t.text rest (pushName [] t.pname) := by
      exact freshChain_eq d rest _ t.kind t.text _ (wfSeq_tail t rest hwfs) (by omega)
    rw [hchain]
    simp [addChild, insertPos, Node.indices, Node.path, Node.data, Node.nodes,
      chainNodeOf, chainOf_path]



theorem commonPrefixLen_append (a b : List Char) :
    commonPrefixLen (a ++ b) a = a.length := by
  induction a with
  | nil => cases b <;> rfl
  | cons c cs ih => simp [commonPrefixLen, ih]

theorem slashIdx_no_slash (v : List Char) (h : ∀ c ∈ v, c ≠ '/') :
    slashIdx v = v.length := by
  induction v with
  | nil => rfl
  | cons c cs ih =>
    rw [slashIdx, if_neg (h c (by simp))]
    rw [ih (fun x hx => h x (by simp [hx]))]
    simp

theorem stopAt_split (k : Char) (u w : List Char)
    (h : ∀ c ∈ u, ¬(c = k ∨ c = '/')) :
    stopAt k (u ++ k :: w) = u.length := by
  induction u with
  | nil => simp [stopAt]
  | cons c cs ih =>
    rw [List.cons_append, stopAt, if_neg (h c (by simp))]
    rw [ih (fun x hx => h x (by simp [hx]))]
    simp

theorem paramStop_split (k : Char) (v w : List Char) (hne : v ≠ [])
    (h : ∀ c ∈ v, ¬(c = k ∨ c = '/')) :
    paramStop (some k) (v ++ k :: w) = v.length := by
  rcases v with _ | ⟨c, cs⟩
  · exact absurd rfl hne
  have hc := h c (by simp)
  rw [List.cons_append]
  rw [paramStop]
  rw [if_neg (fun he => hc (Or.inl he)), if_neg (fun he => hc (Or.inr he))]
  rw [stopAt_split k cs w (fun x hx => h x (by simp [hx]))]
  simp

theorem paramStop_nokey (v : List Char) (h : ∀ c ∈ v, c ≠ '/') :
    paramStop none v = v.length := by
  rw [paramStop]
  exact slashIdx_no_slash v h

theorem not_contains_forall (v : List Char) (a : Char)
    (h : v.contains a = false) : ∀ c ∈ v, c ≠ a := by
  intro c hc he
  subst he
  rw [List.contains, List.elem_eq_mem] at h
  simp only [decide_eq_false_iff_not] at h
  exact h hc

theorem mergeVals_single (v : List Char) (V : List (List Char)) :
    mergeVals (some [v]) (valsOpt V) = some (v :: V) := by
  cases V <;> simp [mergeVals, valsOpt]

theorem chainLastOf_cons (d : R) (acc : List (List Char)) (t r : Tok)
    (rs : List Tok) :
    chainLastOf d acc (t :: r :: rs) =
      chainLastOf d (pushName acc t.pname) (r :: rs) := by
  rfl

theorem concr_wf_ne (T : List Tok) (V : List (List Char))
    (hwf : wfSeq T = true) (hgv : goodVals T V = true) :
    concrToks T V ≠ [] := by
  rcases T with _ | ⟨t, rest⟩
  · rw [wfSeq] at hwf; cases hwf
  cases t with
  | stat s =>
    have hs : s ≠ [] := by
      rcases rest with _ | ⟨r, rs⟩
      · rcases wfLast_of_stat s [] hwf with ⟨hne, _, _⟩; exact hne
      · rw [wfSeq, Bool.and_eq_true, wfStep, Bool.and_eq_true,
          Bool.and_eq_true] at hwf
        simpa using hwf.1.1.1
    simp only [concrToks]
    intro h
    exact hs (List.append_eq_nil.mp h).1
  | par n =>
    rcases V with _ | ⟨v, V₂⟩
    · rw [goodVals] at hgv; cases hgv
    · rw [goodVals, Bool.and_eq_true, Bool.and_eq_true, Bool.and_eq_true] at hgv
      have hv : v ≠ [] := by simpa using hgv.1.1.1
      simp only [concrToks]
      intro h
      exact hv (List.append_eq_nil.mp h).1
  | catchAll n =>
    rcases V with _ | ⟨v, V₂⟩
    · rw [goodVals] at hgv; cases hgv
    · rw [goodVals, Bool.and_eq_true] at hgv
      have hv : v ≠ [] := by simpa using hgv.1
      simp only [concrToks]
      intro h
      exact hv (List.append_eq_nil.mp h).1

theorem goodVals_length (T : List Tok) :
    ∀ V, goodVals T V = true → V.length = (namesOf T).length := by
  induction T with
  | nil =>
    intro V h
    rw [goodVals] at h
    simp [List.isEmpty_iff.mp h, namesOf]
  | cons t rest ih =>
    intro V h
    cases t with
    | stat s =>
      rw [goodVals] at h
      simpa [namesOf, Tok.pname] using ih V h
    | par n =>
      rcases V with _ | ⟨v, V₂⟩
      · rw [goodVals] at h; cases h
      · rw [goodVals, Bool.and_eq_true, Bool.and_eq_true, Bool.and_eq_true] at h
        have := ih V₂ h.2
        simp only [namesOf, List.filterMap_cons, Tok.pname] at this ⊢
        simp [this]
    | catchAll n =>
      rcases V with _ | ⟨v, V₂⟩
      · rw [goodVals] at h; cases h
      · rw [goodVals, Bool.and_eq_true] at h
        have := ih V₂ h.2
        simp only [namesOf, List.filterMap_cons, Tok.pname] at this ⊢
        simp [this]

theorem chainLast_meta (d : R) :
    ∀ (T : List Tok) (acc : List (List Char)), T ≠ [] →
      ∃ kind, (chainLastOf d acc T).data =
        some (termMeta kind (acc ++ namesOf T) d) := by
  intro T
  induction T with
  | nil => intro acc h; exact absurd rfl h
  | cons t rest ih =>
    intro acc _
    rcases rest with _ | ⟨r, rs⟩
    · refine ⟨t.kind, ?_⟩
      have h1 : chainLastOf d acc [t] =
          Node.mk t.text (some (termMeta t.kind (pushName acc t.pname) d)) [] [] := by
        rw [chainLastOf, chainLast]
      rw [h1]
      have h2 : pushName acc t.pname = acc ++ namesOf [t] := by
        cases t <;> simp [pushName, namesOf, Tok.pname]
      rw [h2]
      rfl
    · rw [chainLastOf_cons]
      rcases ih (pushName acc t.pname) (by simp) with ⟨kind, hk⟩
      refine ⟨kind, ?_⟩
      rw [hk]
      have h2 : pushName acc t.pname ++ namesOf (r :: rs) =
          acc ++ namesOf (t :: r :: rs) := by
        cases t <;> simp [pushName, namesOf, Tok.pname]
      rw [h2]

theorem aliasCheck_key (r : RecRes R) (values : Option (List (List Char)))
    (dt : NodeMetadata R) (hd : r.1.data = some dt) (hk : dt.key = true) :
    aliasCheck r values = some (some (r.1, values)) := by
  rw [aliasCheck]
  by_cases hsl : r.1.path.getLast? = some '/'
  · rw [if_pos hsl]
    simp only [hd, hk]
    simp
  · rw [if_neg hsl]

theorem enumFrom_map_zip :
    ∀ (vs ps pre : List (List Char)), vs.length = ps.length →
      ((List.enumFrom pre.length vs).map
        fun iv => ((pre ++ ps).getD iv.1 [], iv.2)) = ps.zip vs := by
  intro vs
  induction vs with
  | nil =>
    intro ps pre h
    simp [List.enumFrom]
  | cons v vs₂ ih =>
    intro ps pre h
    rcases ps with _ | ⟨p, ps₂⟩
    · simp at h
    rw [List.enumFrom]
    rw [List.map_cons]
    have h1 : (pre ++ p :: ps₂).getD pre.length [] = p := by
      rw [List.getD_eq_getElem?_getD]
      rw [List.getElem?_append_right (le_refl pre.length)]
      simp
    rw [h1]
    have h2 : pre.length + 1 = (pre ++ [p]).length := by simp
    have h3 : pre ++ p :: ps₂ = (pre ++ [p]) ++ ps₂ := by simp
    rw [h2, h3, ih ps₂ (pre ++ [p]) (by simpa using h)]
    simp [List.zip_cons_cons]

theorem staticArm_self (recog : List Char → Node R → Option (RecRes R))
    (s : List Char) (md : Option (NodeMetadata R)) (idx : List Char)
    (ns : List (Node R)) :
    staticArm recog s (Node.mk s md idx ns) = some (Node.mk s md idx ns, none) := by
  have h1 : commonPrefixLen s s = s.length := by
    have := commonPrefixLen_append s []
    rwa [List.append_nil] at this
  simp [staticArm, Node.path, h1]

theorem staticArm_dyn (recog : List Char → Node R → Option (RecRes R))
    (s cr : List Char) (md : Option (NodeMetadata R)) (k : Char)
    (child : Node R) (hk : k = ':' ∨ k = '*') (hcr : cr ≠ []) :
    staticArm recog (s ++ cr) (Node.mk s md [k] [child]) =
      childAttempt recog cr [child] 0 := by
  have h1 : commonPrefixLen (s ++ cr) s = s.length := commonPrefixLen_append s cr
  have h2 : s.length ≠ (s ++ cr).length := by
    rw [List.length_append]
    have := List.length_pos.mpr hcr
    omega
  rcases hk with hk | hk <;> subst hk
  all_goals
    simp only [staticArm, Node.path, Node.indices, Node.nodes, h1, h2,
      List.drop_left, List.findIdx?_nil]
    simp [hcr]
    try rcases hca : childAttempt recog cr [child] 0 with _ | res <;> simp [hca]

theorem staticArm_statKey (recog : List Char → Node R → Option (RecRes R))
    (s cr : List Char) (md : Option (NodeMetadata R)) (k : Char)
    (child : Node R) (hk1 : ¬k = ':') (hk2 : ¬k = '*') (hcr : cr ≠ [])
    (hhead : cr.headD ' ' = k) (r : RecRes R)
    (hrec : recog cr child = some r) (dt : NodeMetadata R)
    (hd : r.1.data = some dt) (hkey : dt.key = true) :
    staticArm recog (s ++ cr) (Node.mk s md [k] [child]) =
      some (r.1, mergeVals none r.2) := by
  have h1 : commonPrefixLen (s ++ cr) s = s.length := commonPrefixLen_append s cr
  have h2 : s.length ≠ (s ++ cr).length := by
    rw [List.length_append]
    have := List.length_pos.mpr hcr
    omega
  have hac := aliasCheck_key r (mergeVals none r.2) dt hd hkey
  have hhead' : cr.head?.getD ' ' = k := by
    rw [← hhead]
    cases cr <;> rfl
  simp [staticArm, staticAttempt, Node.path, Node.indices, Node.nodes, h1, h2,
    List.drop_left, hk1, hk2, hhead', List.findIdx?_cons, hrec, hac, hcr]

theorem paramLoop_term (recog : List Char → Node R → Option (RecRes R))
    (md : Option (NodeMetadata R)) (v : List Char)
    (hslash : ∀ c ∈ v, c ≠ '/') :
    paramLoop recog (Node.mk [':'] md [] []) v 0 1 =
      some (Node.mk [':'] md [] [], some [v]) := by
  rw [paramLoop]
  simp [Node.indices, paramStop_nokey v hslash]

theorem paramLoop_bnd (recog : List Char → Node R → Option (RecRes R))
    (md : Option (NodeMetadata R)) (k : Char) (child : Node R)
    (v w : List Char) (hv : v ≠ [])
    (hcl : ∀ c ∈ v, ¬(c = k ∨ c = '/'))
    (r : RecRes R) (hrec : recog (k :: w) child = some r) :
    paramLoop recog (Node.mk [':'] md [k] [child]) (v ++ k :: w) 0 2 =
      some (r.1, mergeVals (some [v]) r.2) := by
  have hps := paramStop_split k v w hv hcl
  have hvpos := List.length_pos.mpr hv
  have hlt : v.length < (v ++ k :: w).length := by
    rw [List.length_append]
    simp
  rw [paramLoop]
  simp only [Node.indices, Node.nodes, List.length_cons, List.length_nil,
    List.get?_cons_zero, hps]
  rw [if_pos (by omega)]
  rw [if_neg (by omega : ¬(0 = 0 + 1 ∧ v.length = (v ++ k :: w).length))]
  rw [if_pos ⟨by omega, hlt⟩]
  rw [List.take_left, List.drop_left]
  rw [if_pos hvpos]
  simp [hrec]

theorem recognizeF_stat_frame (f : Nat) (p : List Char) (b : Char) (bs : List Char)
    (md : Option (NodeMetadata R)) (idx : List Char) (ns : List (Node R))
    (hp : p ≠ []) (hb1 : ¬b = '*') (hb2 : ¬b = ':') :
    recognizeF (f + 1) p (Node.mk (b :: bs) md idx ns) =
      staticArm (recognizeF f) p (Node.mk (b :: bs) md idx ns) := by
  rw [recognizeF]
  simp [Node.path, hb1, hb2, hp]

theorem recognizeF_par_frame (f : Nat) (p : List Char)
    (md : Option (NodeMetadata R)) (idx : List Char) (ns : List (Node R))
    (hp : p ≠ []) :
    recognizeF (f + 1) p (Node.mk [':'] md idx ns) =
      paramLoop (recognizeF f) (Node.mk [':'] md idx ns) p 0 (idx.length + 1) := by
  rw [recognizeF]
  simp [Node.path, Node.indices, hp]

theorem recognizeF_star_frame (f : Nat) (p : List Char)
    (md : Option (NodeMetadata R)) (idx : List Char) (ns : List (Node R))
    (hp : p ≠ []) :
    recognizeF (f + 1) p (Node.mk ['*'] md idx ns) =
      some (Node.mk ['*'] md idx ns, some [p]) := by
  rw [recognizeF]
  simp [Node.path, hp]

theorem recog_chain (d : R) :
    ∀ (T : List Tok), wfSeq T = true →
      ∀ (V : List (List Char)) (acc : List (List Char)) (fuel : Nat),
        goodVals T V = true → (concrToks T V).length < fuel →
        recognizeF fuel (concrToks T V) (chainNodeOf d acc T) =
          some (chainLastOf d acc T, valsOpt V) := by
  intro T
  induction T with
  | nil => intro h; rw [wfSeq] at h; cases h
  | cons t rest ih =>
    intro hwf V acc fuel hgv hfuel
    cases t with
    | stat s =>
      rcases rest with _ | ⟨r, rs⟩
      · -- terminal literal node
        rcases wfLast_of_stat s [] hwf with ⟨hs, hclean, -⟩
        have hV : V = [] := by
          rw [goodVals, goodVals] at hgv
          exact List.isEmpty_iff.mp hgv
        subst hV
        have hconcr : concrToks [Tok.stat s] ([] : List (List Char)) = s := by
          simp [concrToks]
        rw [hconcr] at hfuel ⊢
        rcases s with _ | ⟨b, bs⟩
        · exact absurd rfl hs
        have hb := cleanStat_mem hclean b (by simp)
        cases fuel with
        | zero => omega
        | succ f =>
          have hnode : chainNodeOf d acc [Tok.stat (b :: bs)] =
              Node.mk (b :: bs) (some (termMeta NodeKind.Static acc d)) [] [] := rfl
          rw [hnode]
          rw [recognizeF_stat_frame f (b :: bs) b bs _ _ _ (by simp)
            (fun h => hb (Or.inr h)) (fun h => hb (Or.inl h))]
          rw [staticArm_self]
          rfl
      · -- literal followed by a dynamic token
        rw [wfSeq, Bool.and_eq_true, wfStep, Bool.and_eq_true, Bool.and_eq_true] at hwf
        obtain ⟨⟨⟨hsne, hclean⟩, hdyn⟩, hwfr⟩ := hwf
        have hgv' : goodVals (r :: rs) V = true := by rw [goodVals] at hgv; exact hgv
        have hcrne : concrToks (r :: rs) V ≠ [] := concr_wf_ne _ _ hwfr hgv'
        have hconcr : concrToks (Tok.stat s :: r :: rs) V =
            s ++ concrToks (r :: rs) V := by simp [concrToks]
        rw [hconcr] at hfuel ⊢
        rcases s with _ | ⟨b, bs⟩
        · simp at hsne
        have hb := cleanStat_mem hclean b (by simp)
        cases fuel with
        | zero => omega
        | succ f =>
          have hnode : chainNodeOf d acc (Tok.stat (b :: bs) :: r :: rs) =
              Node.mk (b :: bs) (some (passMeta NodeKind.Static))
                [(chainNodeOf d acc (r :: rs)).path.headD ' ']
                [chainNodeOf d acc (r :: rs)] := rfl
          rw [hnode]
          rw [recognizeF_stat_frame f _ b bs _ _ _ (by simp)
            (fun h => hb (Or.inr h)) (fun h => hb (Or.inl h))]
          have hkey : (chainNodeOf d acc (r :: rs)).path.headD ' ' = ':' ∨
              (chainNodeOf d acc (r :: rs)).path.headD ' ' = '*' := by
            cases r with
            | stat s2 => simp [dynHead] at hdyn
            | par n2 => left; simp [chainNodeOf, chainOf_path, Tok.text]
            | catchAll n2 => right; simp [chainNodeOf, chainOf_path, Tok.text]
          rw [staticArm_dyn _ _ _ _ _ _ hkey hcrne]
          have hrec := ih hwfr V acc f hgv' (by
            rw [List.length_append] at hfuel
            simp only [List.length_cons] at hfuel
            omega)
          rw [childAttempt]
          simp only [List.get?_cons_zero, hrec]
          simp [mergeVals_none, chainLastOf_cons, Tok.pname, pushName]
    | par n =>
      rcases rest with _ | ⟨r, rs⟩
      · -- terminal parameter node
        rcases V with _ | ⟨v, V₂⟩
        · rw [goodVals] at hgv; cases hgv
        rw [goodVals, Bool.and_eq_true, Bool.and_eq_true, Bool.and_eq_true] at hgv
        obtain ⟨⟨⟨hvne, hvsl⟩, -⟩, hgv₂⟩ := hgv
        have hv : v ≠ [] := by simpa using hvne
        have hV₂ : V₂ = [] := by rw [goodVals] at hgv₂; exact List.isEmpty_iff.mp hgv₂
        subst hV₂
        have hvslash : ∀ c ∈ v, c ≠ '/' :=
          not_contains_forall v '/' (by simpa using hvsl)
        have hconcr : concrToks [Tok.par n] [v] = v := by simp [concrToks]
        rw [hconcr] at hfuel ⊢
        cases fuel with
        | zero => omega
        | succ f =>
          have hnode : chainNodeOf d acc [Tok.par n] =
              Node.mk [':'] (some (termMeta NodeKind.Parameter (acc ++ [n]) d))
                [] [] := rfl
          rw [hnode]
          rw [recognizeF_par_frame f v _ _ _ hv]
          rw [show (([] : List Char).length + 1) = 1 from rfl]
          rw [paramLoop_term _ _ v hvslash]
          rfl
      · -- parameter followed by a literal boundary
        rw [wfSeq, Bool.and_eq_true, wfStep, Bool.and_eq_true, Bool.and_eq_true] at hwf
        obtain ⟨⟨⟨hnne, hncln⟩, hbnd⟩, hwfr⟩ := hwf
        cases r with
        | par n2 => rw [statBoundaryHead] at hbnd; cases hbnd
        | catchAll n2 => rw [statBoundaryHead] at hbnd; cases hbnd
        | stat s2 =>
          rcases V with _ | ⟨v, V₂⟩
          · rw [goodVals] at hgv; cases hgv
          rw [goodVals, Bool.and_eq_true, Bool.and_eq_true, Bool.and_eq_true] at hgv
          obtain ⟨⟨⟨hvne, hvsl⟩, hvbnd⟩, hgv₂⟩ := hgv
          have hv : v ≠ [] := by simpa using hvne
          rcases wfLast_of_stat s2 rs hwfr with ⟨hs2, -, -⟩
          rcases s2 with _ | ⟨b, bs⟩
          · exact absurd rfl hs2
          rw [bndOk] at hvbnd
          have hvb : ∀ c ∈ v, c ≠ b :=
            not_contains_forall v b (by simpa using hvbnd)
          have hvslash : ∀ c ∈ v, c ≠ '/' :=
            not_contains_forall v '/' (by simpa using hvsl)
          have hcl : ∀ c ∈ v, ¬(c = b ∨ c = '/') := by
            intro c hc
            rintro (h | h)
            · exact hvb c hc h
            · exact hvslash c hc h
          have hc2 : concrToks (Tok.stat (b :: bs) :: rs) V₂ =
              b :: (bs ++ concrToks rs V₂) := by simp [concrToks]
          have hconcr : concrToks (Tok.par n :: Tok.stat (b :: bs) :: rs) (v :: V₂) =
              v ++ (b :: (bs ++ concrToks rs V₂)) := by simp [concrToks]
          rw [hconcr] at hfuel ⊢
          cases fuel with
          | zero => omega
          | succ f =>
            have hnode : chainNodeOf d acc (Tok.par n :: Tok.stat (b :: bs) :: rs) =
                Node.mk [':'] (some (passMeta NodeKind.Parameter))
                  [(chainNodeOf d (acc ++ [n])
                      (Tok.stat (b :: bs) :: rs)).path.headD ' ']
                  [chainNodeOf d (acc ++ [n]) (Tok.stat (b :: bs) :: rs)] := rfl
            rw [hnode]
            have hkey : (chainNodeOf d (acc ++ [n])
                (Tok.stat (b :: bs) :: rs)).path.headD ' ' = b := by
              simp [chainNodeOf, chainOf_path, Tok.text]
            rw [hkey]
            rw [recognizeF_par_frame f _ _ _ _ (by simp)]
            rw [show (([b] : List Char).length + 1) = 2 from rfl]
            have hrec := ih hwfr V₂ (acc ++ [n]) f hgv₂ (by
              rw [hc2]
              rw [List.length_append] at hfuel
              have := List.length_pos.mpr hv
              simp only [List.length_cons, List.length_append] at hfuel ⊢
              omega)
            rw [hc2] at hrec
            rw [paramLoop_bnd _ _ b _ v (bs ++ concrToks rs V₂) hv hcl _ hrec]
            rcases V₂ with _ | ⟨v2, V₃⟩ <;>
              simp [mergeVals, valsOpt, chainLastOf_cons, Tok.pname, pushName]
    | catchAll n =>
      rcases rest with _ | ⟨r, rs⟩
      · -- terminal catch-all node
        rcases V with _ | ⟨v, V₂⟩
        · rw [goodVals] at hgv; cases hgv
        rw [goodVals, Bool.and_eq_true] at hgv
        obtain ⟨hvne, hgv₂⟩ := hgv
        have hv : v ≠ [] := by simpa using hvne
        have hV₂ : V₂ = [] := by rw [goodVals] at hgv₂; exact List.isEmpty_iff.mp hgv₂
        subst hV₂
        have hconcr : concrToks [Tok.catchAll n] [v] = v := by simp [concrToks]
        rw [hconcr] at hfuel ⊢
        cases fuel with
        | zero => omega
        | succ f =>
          have hnode : chainNodeOf d acc [Tok.catchAll n] =
              Node.mk ['*'] (some (termMeta NodeKind.CatchAll (acc ++ [n]) d))
                [] [] := rfl
          rw [hnode]
          rw [recognizeF_star_frame f v _ _ _ hv]
          rfl
      · simp [wfSeq, wfStep] at hwf

theorem recognize_fresh (T : List Tok) (V : List (List Char)) (d : R)
    (hwf : wfPat T = true) (hgv : goodVals T V = true) :
    recognize ('/' :: concrToks T V)
      (((PathTree.new "/" NodeMetadata.new).insert (patOf T) d).tree) =
      some (chainLastOf d [] T, valsOpt V) := by
  have hwfs : wfSeq T = true := by
    rw [wfPat, Bool.and_eq_true] at hwf; exact hwf.1
  have htree : (((PathTree.new "/" NodeMetadata.new).insert (patOf T) d)).tree =
      Node.mk ['/'] (some NodeMetadata.new)
        [(chainNodeOf d [] T).path.headD ' '] [chainNodeOf d [] T] := by
    rw [insert_fresh T d hwf]
  rcases T with _ | ⟨t, rest⟩
  · rw [wfSeq] at hwfs; cases hwfs
  have hcrne : concrToks (t :: rest) V ≠ [] := concr_wf_ne _ _ hwfs hgv
  rw [recognize, htree]
  simp only [List.length_cons]
  rw [recognizeF_stat_frame ((concrToks (t :: rest) V).length + 1)
    ('/' :: concrToks (t :: rest) V) '/' [] _ _ _
    (by simp) (by decide) (by decide)]
  have hrec := recog_chain d (t :: rest) hwfs V [] (concrToks (t :: rest) V).length.succ
    hgv (Nat.lt_succ_self _)
  rw [show ('/' :: concrToks (t :: rest) V) = ['/'] ++ concrToks (t :: rest) V
    from rfl]
  cases t with
  | par n =>
    have hkey : (chainNodeOf d [] (Tok.par n :: rest)).path.headD ' ' = ':' := by
      simp [chainNodeOf, chainOf_path, Tok.text]
    rw [hkey]
    rw [staticArm_dyn _ _ _ _ _ _ (Or.inl rfl) hcrne]
    rw [childAttempt]
    simp only [List.get?_cons_zero, hrec]
    simp [mergeVals_none]
  | catchAll n =>
    have hkey : (chainNodeOf d [] (Tok.catchAll n :: rest)).path.headD ' ' = '*' := by
      simp [chainNodeOf, chainOf_path, Tok.text]
    rw [hkey]
    rw [staticArm_dyn _ _ _ _ _ _ (Or.inr rfl) hcrne]
    rw [childAttempt]
    simp only [List.get?_cons_zero, hrec]
    simp [mergeVals_none]
  | stat s =>
    rcases wfLast_of_stat s rest hwfs with ⟨hs, hclean, -⟩
    rcases s with _ | ⟨b, bs⟩
    · exact absurd rfl hs
    have hb := cleanStat_mem hclean b (by simp)
    have hkey : (chainNodeOf d [] (Tok.stat (b :: bs) :: rest)).path.headD ' ' = b := by
      simp [chainNodeOf, chainOf_path, Tok.text]
    rw [hkey]
    have hhead : (concrToks (Tok.stat (b :: bs) :: rest) V).headD ' ' = b := by
      simp [concrToks]
    rcases chainLast_meta d (Tok.stat (b :: bs) :: rest) [] (by simp)
      with ⟨kind, hld⟩
    rw [List.nil_append] at hld
    rw [staticArm_statKey _ _ _ _ b _ (fun h => hb (Or.inl h))
      (fun h => hb (Or.inr h)) hcrne hhead _ hrec _ hld rfl]
    simp [mergeVals_none]

theorem valsOpt_of_ne (V : List (List Char)) (h : V ≠ []) :
    valsOpt V = some V := by
  rw [valsOpt, if_neg (by simpa using h)]

theorem enum_map_names_zip (T : List Tok) (V : List (List Char))
    (hlen : V.length = (namesOf T).length) :
    (V.enum.map fun iv => ((namesOf T)[iv.1]?.getD [], iv.2)) =
      (namesOf T).zip V := by
  have h := enumFrom_map_zip V (namesOf T) [] hlen
  simpa using h

theorem findResult_single (T : List Tok) (V : List (List Char)) (d : R)
    (hwf : wfPat T = true) (hgv : goodVals T V = true) :
    (mkTree [(patOf T, d)]).findResult (pathOf T V) =
      some (some d, if namesOf T = [] then none
        else some ((namesOf T).zip V)) := by
  have hwfs : wfSeq T = true := by
    rw [wfPat, Bool.and_eq_true] at hwf; exact hwf.1
  have hTne : T ≠ [] := by
    rintro rfl; rw [wfSeq] at hwfs; cases hwfs
  have hmk : mkTree [(patOf T, d)] =
      (PathTree.new "/" NodeMetadata.new).insert (patOf T) d := rfl
  have hrecog := recognize_fresh T V d hwf hgv
  have hpath : (pathOf T V).data = '/' :: concrToks T V := rfl
  rcases chainLast_meta d T [] hTne with ⟨kind, hld⟩
  rw [List.nil_append] at hld
  have hlen := goodVals_length T V hgv
  rw [PathTree.findResult, hmk, PathTree.find, hpath, hrecog]
  simp only [hld]
  by_cases hn : namesOf T = []
  · have hV : V = [] := by
      rw [hn] at hlen
      simpa using List.length_eq_zero.mp (by simpa using hlen)
    subst hV
    simp [termMeta, hn, valsOpt, hld]
  · have hVne : V ≠ [] := by
      intro h
      subst h
      simp at hlen
      exact hn (List.length_eq_zero.mp hlen.symm)
    rw [valsOpt_of_ne V hVne]
    simp [termMeta, hn, hld, enum_map_names_zip T V hlen]

/-- Claim C1 (amended): for a well-formed pattern (literal, `:name` and
`*name` tokens alternating as the scanner can faithfully re-split, the
leading literal not starting with `/`) and admissible substituted values
(non-empty, slash-free parameter values avoiding the following boundary
byte, non-empty catch-all values), inserting the pattern into a fresh
tree and finding the substituted concrete path returns the inserted
payload and exactly the (name, value) bindings in order. -/
theorem claim_C1_roundtrip (T : List Tok) (V : List (List Char)) (d : R)
    (hwf : wfPat T = true) (hgv : goodVals T V = true) :
    (mkTree [(patOf T, d)]).findResult (pathOf T V) =
      some (some d, if namesOf T = [] then none
        else some ((namesOf T).zip V)) :=
  findResult_single T V d hwf hgv

theorem claim_C1_roundtrip_witness :
    wfPat [Tok.par ['i','d'], Tok.stat ['.'], Tok.par ['e']] = true ∧
    goodVals [Tok.par ['i','d'], Tok.stat ['.'], Tok.par ['e']]
      [['4','2'], ['r','s']] = true ∧
    (mkTree [(patOf [Tok.par ['i','d'], Tok.stat ['.'], Tok.par ['e']],
        (0 : Nat))]).findResult
      (pathOf [Tok.par ['i','d'], Tok.stat ['.'], Tok.par ['e']]
        [['4','2'], ['r','s']]) =
      some (some 0,
        if namesOf [Tok.par ['i','d'], Tok.stat ['.'], Tok.par ['e']] = []
        then none
        else some ((namesOf [Tok.par ['i','d'], Tok.stat ['.'],
          Tok.par ['e']]).zip [['4','2'], ['r','s']])) :=
  ⟨by decide, by decide,
    claim_C1_roundtrip [Tok.par ['i','d'], Tok.stat ['.'], Tok.par ['e']]
      [['4','2'], ['r','s']] 0 (by decide) (by decide)⟩


theorem commonPrefixLen_self (a : List Char) : commonPrefixLen a a = a.length := by
  have := commonPrefixLen_append a []
  rwa [List.append_nil] at this

theorem tok_text_ne (t : Tok) (rest : List Tok) (hwf : wfSeq (t :: rest) = true) :
    t.text ≠ [] := by
  cases t with
  | stat s =>
    rcases wfLast_of_stat s rest hwf with ⟨hs, -, -⟩
    simpa [Tok.text] using hs
  | par n => simp [Tok.text]
  | catchAll n => simp [Tok.text]

theorem patOf_strip (t : Tok) (rest : List Tok)
    (hwfs : wfSeq (t :: rest) = true) (hhead : headNotSlash (t :: rest) = true) :
    (patOf (t :: rest)).data.dropWhile (· = '/') = renderToks (t :: rest) := by
  have h0 : (patOf (t :: rest)).data = '/' :: renderToks (t :: rest) := rfl
  rw [h0]
  rw [List.dropWhile_cons]
  rw [if_pos (by simp)]
  rcases hr : renderToks (t :: rest) with _ | ⟨c, cs⟩
  · rfl
  have hcslash : ¬c = '/' := by
    cases t with
    | stat s =>
      rw [headNotSlash] at hhead
      rcases wfLast_of_stat s rest hwfs with ⟨hne, _, _⟩
      rcases s with _ | ⟨b, bs⟩
      · exact absurd rfl hne
      rw [renderToks_cons] at hr
      simp only [Tok.render, List.cons_append, List.cons.injEq] at hr
      rw [← hr.1]
      simpa using hhead
    | par n =>
      rw [renderToks_cons] at hr
      simp only [Tok.render, List.cons_append, List.cons.injEq] at hr
      rw [← hr.1]
      simp
    | catchAll n =>
      rw [renderToks_cons] at hr
      simp only [Tok.render, List.cons_append, List.cons.injEq] at hr
      rw [← hr.1]
      simp
  rw [List.dropWhile_cons, if_neg (by simpa using hcslash)]

theorem placeTok_chain (d1 d2 : R) :
    ∀ (rest : List Tok) (fuel : Nat) (kind : NodeKind) (tok : List Char)
      (params : List (List Char)) (pp : List Char) (md : Option (NodeMetadata R)),
      (rest = [] ∨ wfSeq rest = true) →
      (renderToks rest).length < fuel → tok ≠ [] →
      placeTok fuel
        (Node.mk pp md [tok.headD ' '] [chainOf d1 kind tok rest params])
        kind tok (renderToks rest) params d2 =
      Node.mk pp md [tok.headD ' '] [chainOf d2 kind tok rest params] := by
  intro rest
  induction rest with
  | nil =>
    intro fuel kind tok params pp md _ hfuel htok
    cases fuel with
    | zero => omega
    | succ f =>
      rw [placeTok]
      simp only [Node.indices, Node.nodes]
      have hfi : (([tok.headD ' '] : List Char).findIdx? (· = tok.headD ' ')) =
          some 0 := by simp
      rw [hfi]
      simp only [List.get?_cons_zero]
      have hr : renderToks ([] : List Tok) = [] := rfl
      simp only [hr, chainOf, Node.path, Node.indices, Node.nodes,
        commonPrefixLen_self]
      simp [replaceChild, List.set, Node.path, Node.data, Node.indices,
        Node.nodes]
  | cons r rs ih =>
    intro fuel kind tok params pp md hwf hfuel htok
    rcases hwf with h | hwf
    · cases h
    cases fuel with
    | zero => omega
    | succ f =>
      rw [placeTok]
      simp only [Node.indices, Node.nodes]
      have hfi : (([tok.headD ' '] : List Char).findIdx? (· = tok.headD ' ')) =
          some 0 := by simp
      rw [hfi]
      simp only [List.get?_cons_zero]
      simp only [chainOf_path, commonPrefixLen_self, if_true]
      rw [if_neg (renderToks_length_pos r rs hwf)]
      simp only [scan1_render r rs hwf]
      have hf2 : (renderToks rs).length < f := by
        have h1 := renderToks_cons r rs
        have h2 : r.render ≠ [] := by
          cases r with
          | stat s =>
            rcases wfLast_of_stat s rs hwf with ⟨hne, -, -⟩
            simpa [Tok.render] using hne
          | par n => simp [Tok.render]
          | catchAll n => simp [Tok.render]
        have h3 : 0 < r.render.length := List.length_pos.mpr h2
        rw [h1] at hfuel
        simp only [List.length_append] at hfuel
        omega
      simp only [chainOf, chainOf_path]
      rw [ih f r.kind r.text (pushName params r.pname) tok
        (some (passMeta kind)) (wfSeq_tail r rs hwf) hf2 (tok_text_ne r rs hwf)]
      simp [replaceChild, List.set, chainOf, chainOf_path, Node.path, Node.data,
        Node.indices, Node.nodes]

theorem insert_twice (T : List Tok) (d1 d2 : R) (hwf : wfPat T = true) :
    ((PathTree.new "/" NodeMetadata.new).insert (patOf T) d1).insert (patOf T) d2 =
      (PathTree.new "/" NodeMetadata.new).insert (patOf T) d2 := by
  rw [insert_fresh T d1 hwf, insert_fresh T d2 hwf]
  rw [wfPat, Bool.and_eq_true] at hwf
  rcases hwf with ⟨hwfs, hhead⟩
  rcases T with _ | ⟨t, rest⟩
  · rw [wfSeq] at hwfs; cases hwfs
  rw [PathTree.insert]
  simp only [patOf_strip t rest hwfs hhead]
  rw [if_neg (renderToks_length_pos t rest hwfs)]
  simp only [scan1_render t rest hwfs]
  simp only [chainNodeOf, chainOf_path]
  have hf : (renderToks rest).length < (renderToks (t :: rest)).length + 1 := by
    rw [renderToks_cons]
    simp only [List.length_append]
    omega
  rw [placeTok_chain d1 d2 rest ((renderToks (t :: rest)).length + 1)
    t.kind t.text (pushName [] t.pname) ['/'] (some NodeMetadata.new)
    (wfSeq_tail t rest hwfs) hf (tok_text_ne t rest hwfs)]

/-- Claim C7: re-inserting an identical pattern is not an error and
overwrites the previously stored payload at the same terminal node:
after Insert(P, d1) then Insert(P, d2), Find on a path matching P
returns d2 (with the same bindings as a single insertion). -/
theorem claim_C7_last_write_wins (T : List Tok) (V : List (List Char))
    (d1 d2 : R) (hwf : wfPat T = true) (hgv : goodVals T V = true) :
    (mkTree [(patOf T, d1), (patOf T, d2)]).findResult (pathOf T V) =
      some (some d2, if namesOf T = [] then none
        else some ((namesOf T).zip V)) := by
  have h2 : mkTree [(patOf T, d1), (patOf T, d2)] = mkTree [(patOf T, d2)] := by
    show ((PathTree.new "/" NodeMetadata.new).insert (patOf T) d1).insert
      (patOf T) d2 = _
    rw [insert_twice T d1 d2 hwf]
    rfl
  rw [h2]
  exact findResult_single T V d2 hwf hgv

theorem claim_C7_last_write_wins_witness :
    wfPat [Tok.stat ['u'], Tok.par ['x']] = true ∧
    goodVals [Tok.stat ['u'], Tok.par ['x']] [['7']] = true ∧
    (mkTree [(patOf [Tok.stat ['u'], Tok.par ['x']], (1 : Nat)),
        (patOf [Tok.stat ['u'], Tok.par ['x']], (2 : Nat))]).findResult
      (pathOf [Tok.stat ['u'], Tok.par ['x']] [['7']]) =
      some (some 2,
        if namesOf [Tok.stat ['u'], Tok.par ['x']] = [] then none
        else some ((namesOf [Tok.stat ['u'], Tok.par ['x']]).zip [['7']])) :=
  ⟨by decide, by decide,
    claim_C7_last_write_wins [Tok.stat ['u'], Tok.par ['x']] [['7']] 1 2
      (by decide) (by decide)⟩


theorem mem_insertIdx_sub {A : Type} (l : List A) (i : Nat) (a x : A)
    (h : x ∈ l.insertIdx i a) : x = a ∨ x ∈ l := by
  induction l generalizing i with
  | nil =>
    cases i with
    | zero =>
      have he : List.insertIdx 0 a ([] : List A) = [a] := rfl
      rw [he] at h
      exact Or.inl (List.mem_singleton.mp h)
    | succ j =>
      have he : List.insertIdx (j + 1) a ([] : List A) = [] := rfl
      rw [he] at h
      cases h
  | cons b bs ih =>
    cases i with
    | zero =>
      have he : List.insertIdx 0 a (b :: bs) = a :: b :: bs := rfl
      rw [he] at h
      rcases List.mem_cons.mp h with h | h
      · exact Or.inl h
      · exact Or.inr h
    | succ j =>
      have he : List.insertIdx (j + 1) a (b :: bs) = b :: List.insertIdx j a bs := rfl
      rw [he] at h
      rcases List.mem_cons.mp h with h | h
      · exact Or.inr (by simp [h])
      · rcases ih j h with h2 | h2
        · exact Or.inl h2
        · exact Or.inr (by simp [h2])

theorem dynHd_nil : dynHd ([] : List Char) = 0 := by decide

theorem mf_dynHd_zero (l : List Char) (h : ∀ c ∈ l, ¬(c = ':' ∨ c = '*')) :
    dynHd l = 0 := by
  cases l with
  | nil => decide
  | cons c cs =>
    rw [dynHd, if_neg]
    simpa using h c (by simp)

theorem labOk_nil : labOk ([] : List Char) := by
  right; right; intro c hc; cases hc

theorem labOk_drop (l : List Char) (i : Nat) (hl : labOk l) (hi : i < l.length) :
    labOk (l.drop i) := by
  rcases hl with h | h | h
  · subst h
    have h0 : i = 0 := by simpa using hi
    subst h0
    exact Or.inl rfl
  · subst h
    have h0 : i = 0 := by simpa using hi
    subst h0
    exact Or.inr (Or.inl rfl)
  · exact Or.inr (Or.inr fun c hc => h c (List.drop_subset i l hc))

theorem labOk_take (l : List Char) (i : Nat) (hl : labOk l) :
    labOk (l.take i) := by
  rcases hl with h | h | h
  · subst h
    cases i with
    | zero => exact labOk_nil
    | succ j => exact Or.inl (by simp)
  · subst h
    cases i with
    | zero => exact labOk_nil
    | succ j => exact Or.inr (Or.inl (by simp))
  · exact Or.inr (Or.inr fun c hc => h c (List.take_subset i l hc))

theorem commonPrefixLen_head (a b : List Char)
    (h : 0 < commonPrefixLen a b) : a.headD ' ' = b.headD ' ' := by
  cases a with
  | nil => simp [commonPrefixLen] at h
  | cons x xs =>
    cases b with
    | nil => simp [commonPrefixLen] at h
    | cons y ys =>
      rw [commonPrefixLen] at h
      by_cases hxy : x = y
      · simp [hxy]
      · rw [if_neg hxy] at h
        cases h

theorem commonPrefixLen_eq_of : ∀ (a b : List Char),
    commonPrefixLen a b = a.length → a.length = b.length → a = b := by
  intro a
  induction a with
  | nil =>
    intro b _ hlen
    cases b with
    | nil => rfl
    | cons y ys => simp at hlen
  | cons x xs ih =>
    intro b hcpl hlen
    cases b with
    | nil => simp at hlen
    | cons y ys =>
      rw [commonPrefixLen] at hcpl
      by_cases hxy : x = y
      · subst hxy
        rw [if_pos rfl] at hcpl
        simp only [List.length_cons] at hcpl hlen
        rw [ih ys (by omega) (by omega)]
      · rw [if_neg hxy] at hcpl
        simp at hcpl

theorem headD_take (l : List Char) (i : Nat) (hi : 0 < i) :
    (l.take i).headD ' ' = l.headD ' ' := by
  cases l with
  | nil => simp
  | cons c cs =>
    cases i with
    | zero => omega
    | succ j => simp [List.take_succ_cons]

theorem dynHd_take_zero (l : List Char)
    (h : ∀ c ∈ l, ¬(c = ':' ∨ c = '*')) (i : Nat) : dynHd (l.take i) = 0 :=
  mf_dynHd_zero _ fun c hc => h c (List.take_subset i l hc)

theorem dynHd_drop_zero (l : List Char)
    (h : ∀ c ∈ l, ¬(c = ':' ∨ c = '*')) (i : Nat) : dynHd (l.drop i) = 0 :=
  mf_dynHd_zero _ fun c hc => h c (List.drop_subset i l hc)

theorem labOk_mf (l : List Char) (hl : labOk l) (hlen : 2 ≤ l.length) :
    ∀ c ∈ l, ¬(c = ':' ∨ c = '*') := by
  rcases hl with h | h | h
  · subst h; simp at hlen
  · subst h; simp at hlen
  · exact h

/-- Balance of the dynamic count when an existing label `cp` is a strict
prefix of a token `tok` (the leftover-descend case of `placeTok`). -/
theorem dyn_balance_drop (tok cp : List Char) (hlab : labOk tok)
    (hcpl : commonPrefixLen tok cp = cp.length) (hlt : cp.length < tok.length) :
    dynHd cp + dynHd (tok.drop cp.length) = dynHd tok := by
  cases cp with
  | nil => simp [dynHd_nil]
  | cons y ys =>
    have hpos : 0 < commonPrefixLen tok (y :: ys) := by
      rw [hcpl]; simp
    have hhead := commonPrefixLen_head tok (y :: ys) hpos
    have hmf : ∀ c ∈ tok, ¬(c = ':' ∨ c = '*') := by
      apply labOk_mf tok hlab
      simp only [List.length_cons] at hlt
      omega
    rw [mf_dynHd_zero tok hmf, dynHd_drop_zero tok hmf]
    have : dynHd (y :: ys) = 0 := by
      rw [dynHd, if_neg]
      rw [← hhead]
      cases tok with
      | nil => simp at hlt
      | cons t ts => simpa using hmf t (by simp)
    omega

/-- Balance of the dynamic count when a token is split at position `i`
strictly inside it. -/
theorem dyn_balance_split (tok : List Char) (hlab : labOk tok) (i : Nat)
    (hi : i < tok.length) :
    dynHd (tok.take i) + dynHd (tok.drop i) = dynHd tok := by
  cases i with
  | zero => simp [dynHd_nil]
  | succ j =>
    have hmf : ∀ c ∈ tok, ¬(c = ':' ∨ c = '*') := by
      apply labOk_mf tok hlab
      omega
    rw [mf_dynHd_zero tok hmf, dynHd_take_zero tok hmf, dynHd_drop_zero tok hmf]

/-- Balance of the dynamic count when an existing label `cp` is split at
the common-prefix position against a token `tok` (the split cases of
`placeTok`). -/
theorem dyn_balance_cross (tok cp : List Char) (hlabc : labOk cp)
    (hi : commonPrefixLen tok cp < cp.length) :
    dynHd (tok.take (commonPrefixLen tok cp)) +
      dynHd (cp.drop (commonPrefixLen tok cp)) = dynHd cp := by
  rcases Nat.eq_zero_or_pos (commonPrefixLen tok cp) with h0 | hpos
  · rw [h0]
    simp [dynHd_nil]
  · have hhead := commonPrefixLen_head tok cp hpos
    have hmf : ∀ c ∈ cp, ¬(c = ':' ∨ c = '*') := by
      apply labOk_mf cp hlabc
      omega
    rw [dynHd_drop_zero cp hmf, mf_dynHd_zero cp hmf]
    have : dynHd (tok.take (commonPrefixLen tok cp)) = 0 := by
      rw [dynHd, if_neg]
      rw [headD_take tok _ hpos, hhead]
      cases cp with
      | nil => simp at hi
      | cons y ys => simpa using hmf y (by simp)
    omega

theorem pushName_length (params : List (List Char)) (o : Option (List Char)) :
    (pushName params o).length =
      params.length + (match o with | none => 0 | some _ => 1) := by
  cases o <;> simp [pushName]

theorem staticIdx_take_mf : ∀ (buf : List Char),
    ∀ c ∈ buf.take (staticIdx buf), ¬(c = ':' ∨ c = '*') := by
  intro buf
  induction buf with
  | nil => intro c hc; simp at hc
  | cons b bs ih =>
    intro c hc
    rw [staticIdx] at hc
    by_cases hb : b = ':' ∨ b = '*'
    · rw [if_pos hb] at hc
      simp at hc
    · rw [if_neg hb] at hc
      rw [List.take_succ_cons] at hc
      rcases List.mem_cons.mp hc with rfl | hc
      · exact hb
      · exact ih c hc

theorem scan1_shape (buf : List Char) (hb : buf ≠ []) :
    (scan1 buf).2.1 ≠ [] ∧ labOk (scan1 buf).2.1 ∧
      (((scan1 buf).2.2.1 = none ∧ dynHd (scan1 buf).2.1 = 0) ∨
       (∃ nm, (scan1 buf).2.2.1 = some nm ∧ dynHd (scan1 buf).2.1 = 1)) := by
  rw [scan1]
  rw [if_neg (by simpa using hb)]
  by_cases h1 : buf.headD ' ' = '*'
  · rw [if_pos h1]
    refine ⟨by simp, Or.inr (Or.inl rfl), Or.inr ⟨buf.drop 1, rfl, by simp [dynHd]⟩⟩
  · rw [if_neg h1]
    by_cases h2 : buf.headD ' ' = ':'
    · rw [if_pos h2]
      refine ⟨by simp, Or.inl rfl, Or.inr ⟨(buf.take (colonIdx 0 buf)).drop 1,
        rfl, by simp [dynHd]⟩⟩
    · rw [if_neg h2]
      have hmf := staticIdx_take_mf buf
      refine ⟨?_, Or.inr (Or.inr hmf), Or.inl ⟨rfl, mf_dynHd_zero _ hmf⟩⟩
      cases buf with
      | nil => exact absurd rfl hb
      | cons b bs =>
        rw [staticIdx]
        rw [if_neg (by simp only [List.headD_cons] at h1 h2; simp [h1, h2])]
        simp
theorem commonPrefixLen_le_left (a b : List Char) :
    commonPrefixLen a b ≤ a.length := by
  induction a generalizing b with
  | nil => cases b <;> simp [commonPrefixLen]
  | cons x xs ih =>
    cases b with
    | nil => simp [commonPrefixLen]
    | cons y ys =>
      simp only [commonPrefixLen]
      split
      · simpa using ih ys
      · simp

theorem pushName_len_none (params : List (List Char)) :
    (pushName params none).length = params.length := by simp [pushName]

theorem pushName_len_some (params : List (List Char)) (nm : List Char) :
    (pushName params (some nm)).length = params.length + 1 := by simp [pushName]

theorem PN_lab {k : Nat} {n : Node R} (h : PN k n) : labOk n.path := by
  cases h with
  | mk k p dt idx ns hlab hps hch => exact hlab

theorem PN_params {k : Nat} {n : Node R} (h : PN k n) :
    ∀ dtv ps, n.data = some dtv → dtv.params = some ps →
      ps.length = k + dynHd n.path := by
  cases h with
  | mk k p dt idx ns hlab hps hch => exact hps

theorem PN_child {k : Nat} {n : Node R} (h : PN k n) :
    ∀ c ∈ n.nodes, PN (k + dynHd n.path) c := by
  cases h with
  | mk k p dt idx ns hlab hps hch => exact hch

/-- A terminal node written by an insertion satisfies the accounting
invariant when the accumulated names match its dynamic depth. -/
theorem term_node_PN (k : Nat) (cp : List Char) (kind : NodeKind)
    (params : List (List Char)) (d : R) (cidx : List Char) (cns : List (Node R))
    (hlab : labOk cp) (hlen : params.length = k + dynHd cp)
    (hch : ∀ c ∈ cns, PN (k + dynHd cp) c) :
    PN k (Node.mk cp (some (termMeta kind params d)) cidx cns) := by
  refine PN.mk k cp _ cidx cns hlab ?_ hch
  intro dtv ps hdt hps
  injection hdt with hdt
  subst hdt
  simp only [termMeta] at hps
  by_cases hpar : params = []
  · rw [if_pos hpar] at hps
    cases hps
  · rw [if_neg hpar] at hps
    injection hps with hps
    subst hps
    exact hlen

/-- A pass-through node carries no parameter names, so it satisfies the
accounting invariant whenever its children do. -/
theorem pass_node_PN (k : Nat) (cp : List Char) (kind : NodeKind)
    (cidx : List Char) (cns : List (Node R)) (hlab : labOk cp)
    (hch : ∀ c ∈ cns, PN (k + dynHd cp) c) :
    PN k (Node.mk cp (some (passMeta kind)) cidx cns) := by
  refine PN.mk k cp _ cidx cns hlab ?_ hch
  intro dtv ps hdt hps
  injection hdt with hdt
  subst hdt
  simp only [passMeta] at hps
  cases hps

/-- Relabelling a node to a suffix of its label (the split cases)
preserves the invariant at the rebalanced depth. -/
theorem orig_PN (kc : Nat) (cp : List Char) (cdt : Option (NodeMetadata R))
    (cidx : List Char) (cns : List (Node R)) (L knew : Nat)
    (hc : PN kc (Node.mk cp cdt cidx cns)) (hL : L < cp.length)
    (hbal : knew + dynHd (cp.drop L) = kc + dynHd cp) :
    PN knew (Node.mk (cp.drop L) cdt cidx cns) := by
  cases hc with
  | mk _ _ _ _ _ hclab hcps hcch =>
    refine PN.mk _ _ _ _ _ (labOk_drop cp L hclab hL) ?_ ?_
    · intro dtv ps hdt hps
      rw [hcps dtv ps hdt hps]
      omega
    · intro x hx
      rw [hbal]
      exact hcch x hx

theorem replaceChild_PN (k : Nat) (p : List Char) (dt : Option (NodeMetadata R))
    (idx : List Char) (ns : List (Node R)) (i : Nat) (c2 : Node R)
    (hpn : PN k (Node.mk p dt idx ns)) (hc2 : PN (k + dynHd p) c2) :
    PN k (replaceChild (Node.mk p dt idx ns) i c2) := by
  cases hpn with
  | mk _ _ _ _ _ hplab hpps hpch =>
    simp only [replaceChild, Node.path, Node.data, Node.indices, Node.nodes]
    refine PN.mk k p dt idx _ hplab hpps ?_
    intro x hx
    rcases List.mem_or_eq_of_mem_set hx with hx2 | rfl
    · exact hpch x hx2
    · exact hc2

theorem addChild_PN (k : Nat) (p : List Char) (dt : Option (NodeMetadata R))
    (idx : List Char) (ns : List (Node R)) (c2 : Node R)
    (hpn : PN k (Node.mk p dt idx ns)) (hc2 : PN (k + dynHd p) c2) :
    PN k (addChild (Node.mk p dt idx ns) c2) := by
  cases hpn with
  | mk _ _ _ _ _ hplab hpps hpch =>
    simp only [addChild, Node.path, Node.data, Node.indices, Node.nodes]
    refine PN.mk k p dt _ _ hplab hpps ?_
    intro x hx
    rcases mem_insertIdx_sub _ _ _ _ hx with rfl | hx2
    · exact hc2
    · exact hpch x hx2

/-- A fresh chain created by an insertion satisfies the accounting
invariant at the depth its accumulated names prescribe. -/
theorem freshChain_PN (d : R) :
    ∀ (fuel : Nat) (buf : List Char) (kind : NodeKind) (tok : List Char)
      (params : List (List Char)) (k : Nat),
      labOk tok → params.length = k + dynHd tok →
      PN k (freshChain fuel kind tok buf params d) := by
  intro fuel
  induction fuel with
  | zero =>
    intro buf kind tok params k hlab hlen
    rw [freshChain]
    exact term_node_PN k tok kind params d [] [] hlab hlen
      (by intro c hc; cases hc)
  | succ f ih =>
    intro buf kind tok params k hlab hlen
    simp only [freshChain]
    by_cases hb : buf = []
    · rw [if_pos hb]
      exact term_node_PN k tok kind params d [] [] hlab hlen
        (by intro c hc; cases hc)
    · rw [if_neg hb]
      rcases scan1_shape buf hb with ⟨hstne, hstlab, hsdisj⟩
      refine pass_node_PN k tok kind _ _ hlab ?_
      intro c hc
      rcases List.mem_singleton.mp hc with rfl
      apply ih (scan1 buf).2.2.2 (scan1 buf).1 (scan1 buf).2.1 _ _ hstlab
      rcases hsdisj with ⟨hn, hd0⟩ | ⟨nm, hn, hd1⟩
      · rw [hn, pushName_len_none, hd0]
        omega
      · rw [hn, pushName_len_some, hd1]
        omega

/-- `placeTok` preserves the parameter-name accounting invariant. -/
theorem placeTok_PN (d : R) :
    ∀ (fuel : Nat) (nd : Node R) (kind : NodeKind) (tok buf : List Char)
      (params : List (List Char)) (k : Nat),
      PN k nd → labOk tok → tok ≠ [] →
      params.length = (k + dynHd nd.path) + dynHd tok →
      PN k (placeTok fuel nd kind tok buf params d) := by
  intro fuel
  induction fuel with
  | zero =>
    intro nd kind tok buf params k hpn _ _ _
    rw [placeTok]
    exact hpn
  | succ f ih =>
    intro nd kind tok buf params k hpn hlab htne hlen
    rcases nd with ⟨p, dt, idx, ns⟩
    simp only [Node.path] at hlen
    rw [placeTok]
    simp only [Node.indices, Node.nodes]
    rcases hfi : idx.findIdx? (· = tok.headD ' ') with _ | i
    · simp only [hfi]
      exact addChild_PN k p dt idx ns _ hpn
        (freshChain_PN d _ buf kind tok params _ hlab hlen)
    · simp only [hfi]
      rcases hget : ns.get? i with _ | c
      · simp only [hget]
        exact hpn
      · simp only [hget]
        have hc := PN_child hpn c (List.get?_mem hget)
        simp only [Node.path] at hc
        have hclab := PN_lab hc
        rcases c with ⟨cp, cdt, cidx, cns⟩
        simp only [Node.path] at hclab
        simp only [Node.path, Node.data, Node.indices, Node.nodes]
        by_cases hfull : commonPrefixLen tok cp = cp.length
        · rw [if_pos hfull]
          by_cases htok : commonPrefixLen tok cp = tok.length
          · rw [if_pos htok]
            have heq : tok = cp := commonPrefixLen_eq_of tok cp htok (by
              rw [← htok, hfull])
            subst heq
            by_cases hb : buf = []
            · rw [if_pos hb]
              refine replaceChild_PN k p dt idx ns i _ hpn ?_
              refine term_node_PN _ tok kind params d cidx cns hclab hlen ?_
              intro x hx
              have := PN_child hc x (by simpa [Node.nodes] using hx)
              simpa [Node.path] using this
            · rw [if_neg hb]
              rcases scan1_shape buf hb with ⟨hstne, hstlab, hsdisj⟩
              refine replaceChild_PN k p dt idx ns i _ hpn ?_
              apply ih _ _ _ _ _ _ hc hstlab hstne
              simp only [Node.path]
              rcases hsdisj with ⟨hn, hd0⟩ | ⟨nm, hn, hd1⟩
              · rw [hn, pushName_len_none, hd0]
                omega
              · rw [hn, pushName_len_some, hd1]
                omega
          · rw [if_neg htok]
            have hlt : cp.length < tok.length := by
              have h1 := commonPrefixLen_le_left tok cp
              omega
            have hbal := dyn_balance_drop tok cp hlab hfull hlt
            rw [hfull]
            refine replaceChild_PN k p dt idx ns i _ hpn ?_
            apply ih _ _ _ _ _ _ hc (labOk_drop tok cp.length hlab hlt) ?_ ?_
            · intro hdrop
              have : (tok.drop cp.length).length = 0 := by rw [hdrop]; rfl
              rw [List.length_drop] at this
              omega
            · simp only [Node.path]
              omega
        · rw [if_neg hfull]
          have hL : commonPrefixLen tok cp < cp.length := by
            have := commonPrefixLen_le_right tok cp
            omega
          by_cases htok : commonPrefixLen tok cp = tok.length
          · rw [if_pos htok]
            have htake : tok.take (commonPrefixLen tok cp) = tok := by
              rw [htok]
              exact List.take_length tok
            rw [htake]
            have hbal := dyn_balance_cross tok cp hclab hL
            rw [htake] at hbal
            have horig : PN ((k + dynHd p) + dynHd tok)
                (Node.mk (cp.drop (commonPrefixLen tok cp)) cdt cidx cns) :=
              orig_PN _ _ _ _ _ _ _ hc hL (by omega)
            by_cases hb : buf = []
            · rw [if_pos hb, if_pos hb]
              refine replaceChild_PN k p dt idx ns i _ hpn ?_
              refine term_node_PN _ tok kind params d _ _ hlab hlen ?_
              intro x hx
              rcases List.mem_singleton.mp hx with rfl
              exact horig
            · rw [if_neg hb, if_neg hb]
              rcases scan1_shape buf hb with ⟨hstne, hstlab, hsdisj⟩
              refine replaceChild_PN k p dt idx ns i _ hpn ?_
              apply ih _ _ _ _ _ _ ?_ hstlab hstne ?_
              · refine pass_node_PN _ tok kind _ _ hlab ?_
                intro x hx
                rcases List.mem_singleton.mp hx with rfl
                exact horig
              · simp only [Node.path]
                rcases hsdisj with ⟨hn, hd0⟩ | ⟨nm, hn, hd1⟩
                · rw [hn, pushName_len_none, hd0]
                  omega
                · rw [hn, pushName_len_some, hd1]
                  omega
          · rw [if_neg htok]
            have hLtok : commonPrefixLen tok cp < tok.length := by
              have := commonPrefixLen_le_left tok cp
              omega
            have hbal1 := dyn_balance_split tok hlab _ hLtok
            have hbal2 := dyn_balance_cross tok cp hclab hL
            have horig : PN ((k + dynHd p) + dynHd (tok.take (commonPrefixLen tok cp)))
                (Node.mk (cp.drop (commonPrefixLen tok cp)) cdt cidx cns) :=
              orig_PN _ _ _ _ _ _ _ hc hL (by omega)
            refine replaceChild_PN k p dt idx ns i _ hpn ?_
            refine addChild_PN _ _ _ _ _ _ ?_ ?_
            · refine pass_node_PN _ _ kind _ _ (labOk_take tok _ hlab) ?_
              intro x hx
              rcases List.mem_singleton.mp hx with rfl
              exact horig
            · apply freshChain_PN d _ buf kind _ params _
                (labOk_drop tok _ hlab hLtok)
              omega

/-- `insert` preserves the accounting invariant at the root. -/
theorem insert_PN (t : PathTree R) (pa : String) (d : R)
    (hpn : PN 0 t.tree) (hroot : dynHd t.tree.path = 0) :
    PN 0 ((t.insert pa d)).tree := by
  rw [PathTree.insert]
  by_cases hb : pa.data.dropWhile (· = '/') = []
  · rw [if_pos hb]
    rcases t with ⟨tr⟩
    rcases tr with ⟨p, dt, idx, ns⟩
    rcases dt with _ | md
    · exact hpn
    · cases hpn with
      | mk _ _ _ _ _ hplab hpps hpch =>
        simp only [Node.path, Node.data, Node.indices, Node.nodes]
        refine PN.mk 0 p _ idx ns hplab ?_ hpch
        intro dtv ps hdt hps
        injection hdt with hdt
        subst hdt
        exact hpps md ps rfl hps
  · rw [if_neg hb]
    rcases scan1_shape _ hb with ⟨hstne, hstlab, hsdisj⟩
    apply placeTok_PN d _ t.tree (scan1 _).1 (scan1 _).2.1 _ _ 0 hpn hstlab hstne
    rw [hroot]
    rcases hsdisj with ⟨hn, hd0⟩ | ⟨nm, hn, hd1⟩
    · rw [hn, pushName_len_none, hd0]
      rfl
    · rw [hn, pushName_len_some, hd1]
      simp

theorem foldl_PN : ∀ (l : List (String × R)) (t : PathTree R),
    PN 0 t.tree → dynHd t.tree.path = 0 →
    PN 0 (l.foldl (fun t pd => t.insert pd.1 pd.2) t).tree := by
  intro l
  induction l with
  | nil => intro t h _; exact h
  | cons x xs ih =>
    intro t h hr
    simp only [List.foldl_cons]
    apply ih
    · exact insert_PN t x.1 x.2 h hr
    · rw [insert_path]
      exact hr

/-- Every tree built from scratch by insertions satisfies the
parameter-name accounting invariant. -/
theorem mkTree_PN (l : List (String × R)) : PN 0 (mkTree l).tree := by
  apply foldl_PN
  · refine PN.mk 0 ['/'] _ [] []
      (Or.inr (Or.inr ?_)) ?_ (by intro c hc; cases hc)
    · intro c hc
      rcases List.mem_singleton.mp hc with rfl
      simp
    · intro dtv ps hdt hps
      injection hdt with hdt
      subst hdt
      simp only [NodeMetadata.new] at hps
      cases hps
  · rfl

/-- A successful `aliasCheck` result node is the attempted node itself
or (via trailing-slash aliasing) one of its children. -/
theorem aliasCheck_node (r : RecRes R) (values : Option (List (List Char)))
    (out : RecRes R) (h : aliasCheck r values = some (some out)) :
    out.1 = r.1 ∨ out.1 ∈ r.1.nodes := by
  unfold aliasCheck at h
  split at h
  · split at h
    · split at h
      · cases h
        exact Or.inl rfl
      · split at h
        · split at h
          · rename_i star hget
            cases h
            exact Or.inr (List.get?_mem hget)
          · cases h
        · cases h
    · cases h
      exact Or.inl rfl
  · cases h
    exact Or.inl rfl

/-- A successful Static arm is either the node itself with nothing
captured, or comes from a successful recursive match on one of the
node's children, passing its values through and resulting in that
match's node or (via aliasing) one of its children. -/
theorem staticArm_success2 (recog : List Char → Node R → Option (RecRes R))
    (path : List Char) (nd : Node R) (res : RecRes R)
    (h : staticArm recog path nd = some res) :
    res = (nd, none) ∨ ∃ child r, child ∈ nd.nodes ∧
      recog (path.drop nd.path.length) child = some r ∧ res.2 = r.2 ∧
      (res.1 = r.1 ∨ res.1 ∈ r.1.nodes) := by
  simp only [staticArm] at h
  by_cases hmo : (if nd.path.length ≤ path.length then commonPrefixLen path nd.path
      else path.length) < nd.path.length
  · rw [if_pos hmo] at h; simp at h
  · rw [if_neg hmo] at h
    have hm : (if nd.path.length ≤ path.length then commonPrefixLen path nd.path
        else path.length) = nd.path.length := by
      by_cases hle : nd.path.length ≤ path.length
      · rw [if_pos hle]
        rw [if_pos hle] at hmo
        have := commonPrefixLen_le_right path nd.path
        omega
      · rw [if_neg hle] at hmo ⊢
        omega
    rw [hm] at h
    by_cases hfull : nd.path.length = path.length
    · rw [if_pos ⟨rfl, hfull⟩] at h
      cases h
      exact Or.inl rfl
    · rw [if_neg (by simp [hfull])] at h
      by_cases hl0 : nd.indices.length = 0
      · rw [if_pos hl0] at h; simp at h
      · rw [if_neg hl0] at h
        split at h
        · rename_i step0 res0 hstep
          subst h
          split at hstep
          · simp at hstep
          · rcases staticAttempt_success _ _ _ _ _ hstep with
              ⟨child, r, hget, hrec, halias⟩
            have h2 := aliasCheck_vals r r.2 res halias
            have h3 := aliasCheck_node r r.2 res halias
            exact Or.inr ⟨child, r, List.get?_mem hget, hrec, h2, h3⟩
        · rename_i step0 hstep
          split at h
          · rename_i res0 hcol
            cases h
            split at hcol <;> split at hcol <;>
              first
                | simp at hcol
                | (rename_i hc2
                   rcases childAttempt_success _ _ _ _ _ hcol with
                     ⟨child, r, hget, hrec, hres⟩
                   exact Or.inr ⟨child, r, List.get?_mem hget, hrec,
                     by rw [hres], by rw [hres]; exact Or.inl rfl⟩)
          · rename_i hcol
            split at h <;>
              first
                | simp at h
                | (rename_i hc2
                   rcases childAttempt_success _ _ _ _ _ h with
                     ⟨child, r, hget, hrec, hres⟩
                   exact Or.inr ⟨child, r, List.get?_mem hget, hrec,
                     by rw [hres], by rw [hres]; exact Or.inl rfl⟩)

/-- On a tree satisfying the accounting invariant at depth `k`, a
successful `recognizeF` yields a result node that satisfies the
invariant at some depth `kr ≥ k`, and the number of captured values is
bounded by `kr - k` plus one for the result node itself when dynamic.
In particular it never exceeds the length of the parameter-name list
stored at the result node. -/
theorem recognizeF_bound :
    ∀ (fuel : Nat) (path : List Char) (nd : Node R) (k : Nat) (res : RecRes R),
      PN k nd → recognizeF fuel path nd = some res →
      ∃ kr, k ≤ kr ∧ PN kr res.1 ∧
        ∀ vs, res.2 = some vs → vs.length + k ≤ kr + dynHd res.1.path := by
  intro fuel
  induction fuel with
  | zero => intro path nd k res _ h; exact absurd h (by simp [recognizeF])
  | succ fuel ih =>
    intro path nd k res hpn h
    rw [recognizeF] at h
    split at h
    · exact absurd h (by simp)
    · split at h
      · exact absurd h (by simp)
      · split at h
        · -- catch-all node: captures the whole path at the node itself
          rename_i hstar
          cases h
          refine ⟨k, le_refl k, hpn, ?_⟩
          intro vs hvs
          injection hvs with hvs
          subst hvs
          simp only [List.length_singleton]
          have : dynHd nd.path = 1 := by
            rw [dynHd, if_pos (Or.inr hstar)]
          omega
        · split at h
          · -- parameter node: the candidate loop
            rename_i hnstar hcolon
            have hdyn : dynHd nd.path = 1 := by
              rw [dynHd, if_pos (Or.inl hcolon)]
            rcases paramLoop_success _ _ _ _ _ _ h with hself |
              ⟨i, child, r, hget, hrec, hlen, hres⟩
            · subst hself
              refine ⟨k, le_refl k, hpn, ?_⟩
              intro vs hvs
              injection hvs with hvs
              subst hvs
              simp only [List.length_singleton]
              omega
            · have hcpn := PN_child hpn child (List.get?_mem hget)
              rw [hdyn] at hcpn
              rcases ih _ _ _ _ hcpn hrec with ⟨kr, hk, hpnr, hbound⟩
              subst hres
              refine ⟨kr, by omega, hpnr, ?_⟩
              intro vs hvs
              rcases hr2 : r.2 with _ | vs'
              · rw [hr2] at hvs
                simp only [mergeVals] at hvs
                injection hvs with hvs
                subst hvs
                simp only [List.length_singleton]
                omega
              · rw [hr2] at hvs
                simp only [mergeVals] at hvs
                injection hvs with hvs
                subst hvs
                have := hbound vs' hr2
                simp only [List.length_append, List.length_singleton]
                omega
          · -- static node
            rcases staticArm_success2 _ _ _ _ h with hself |
              ⟨child, r, hmem, hrec, hv2, hn1⟩
            · subst hself
              refine ⟨k, le_refl k, hpn, ?_⟩
              intro vs hvs
              cases hvs
            · have hcpn := PN_child hpn child hmem
              rcases ih _ _ _ _ hcpn hrec with ⟨kr, hk, hpnr, hbound⟩
              rcases hn1 with hsame | hstar
              · refine ⟨kr, by omega, by rwa [hsame], ?_⟩
                intro vs hvs
                rw [hv2] at hvs
                have := hbound vs hvs
                rw [hsame]
                omega
              · refine ⟨kr + dynHd r.1.path, by omega, ?_, ?_⟩
                · have := PN_child hpnr res.1 hstar
                  exact this
                · intro vs hvs
                  rw [hv2] at hvs
                  have := hbound vs hvs
                  omega

/-- Claim C9: `Find` is a total computation on every tree built by any
sequence of insertions, and all internal indexing stays in bounds — in
particular, pairing the captured values with the terminal node's
parameter names indexes `param_names` only at positions below its
length: the number of captured values never exceeds the length of the
stored parameter-name list. -/
theorem claim_C9_no_panic (l : List (String × R)) (p : String)
    (node : Node R) (values : Option (List (List Char)))
    (vs ps : List (List Char)) (dt : NodeMetadata R)
    (hrec : recognize p.data (mkTree l).tree = some (node, values))
    (hvs : values = some vs) (hdt : node.data = some dt)
    (hps : dt.params = some ps) :
    vs.length ≤ ps.length := by
  have hpn := mkTree_PN l
  rw [recognize] at hrec
  rcases recognizeF_bound _ _ _ 0 (node, values) hpn hrec with
    ⟨kr, hk, hpnr, hbound⟩
  have hlen := PN_params hpnr dt ps hdt hps
  have hb := hbound vs hvs
  omega

theorem claim_C9_no_panic_witness :
    recognize ("/x".data) (mkTree [("/:a", (0 : Nat))]).tree =
      some (Node.mk [':'] (some (termMeta NodeKind.Parameter [['a']] 0)) [] [],
        some [['x']]) ∧
    ([['x']] : List (List Char)).length ≤ ([['a']] : List (List Char)).length :=
  ⟨rfl, claim_C9_no_panic [("/:a", 0)] "/x"
    (Node.mk [':'] (some (termMeta NodeKind.Parameter [['a']] 0)) [] [])
    (some [['x']]) [['x']] [['a']] (termMeta NodeKind.Parameter [['a']] 0)
    rfl rfl rfl rfl⟩

end PathTreeRepo
